import Mathlib

/-!
Verification of the stats-app log ingestion pipeline.

This file gives a shallow embedding, in Lean, of the core of the
EBISPOT/stats-app repository:

* `dataload/load-data.py` — the fact loader (`_process_log_entry`,
  `_batch_get_or_create_endpoints`, `_batch_get_or_create_countries`,
  `_batch_insert_requests_and_parameters`, `process_file`);
* `load-data.py` (repository root) — the earlier loader, whose
  `_process_log_entry` differs in how it treats the query string;
* `dataload/fetch-data-from-api.py` — the log extractor
  (`_build_query` / `fetch_logs` pagination, `_save_logs`);
* `dataload/clickhouse_analytics.py` — the analytics replicator
  (`_sync_with_date_filter`, `_sync_all_historical_data`).

Machine timestamps are modelled as natural numbers counting microseconds
since the epoch (the resolution used by the code: Python datetimes and the
`timedelta(microseconds=1)` cursor step).  Database state is passed
explicitly; SQL statements are modelled row by row with the same conflict
semantics the statements request from PostgreSQL.
-/

namespace StatsApp

/-! ## Query strings: urllib.parse.parse_qs followed by the flatten step

`_process_log_entry` does `parse_qs(query)` and then flattens each value
list to its first element.  `parse_qs` splits the query on `&`, splits
each part on the first `=`, and with the default `keep_blank_values=False`
drops parts that have no `=` or an empty value.  The net result of
parse-then-flatten is: the first value seen for each name wins.
Percent-decoding is not modelled; no input in this development contains an
escape sequence. -/

/-- Python `s.split(c)` for a one-character separator, on the character
list of the string (structural, so that concrete inputs evaluate). -/
def splitListOn (sep : Char) : List Char → List (List Char)
  | [] => [[]]
  | c :: rest =>
    if c = sep then [] :: splitListOn sep rest
    else
      match splitListOn sep rest with
      | [] => [[c]]
      | h :: t => (c :: h) :: t

/-- One `name=value` part of a query string, as `parse_qs` treats it:
`none` when the part has no `=` or an empty value (dropped because
`keep_blank_values` defaults to `False`); the split is on the first `=`. -/
def parseQsPair (part : String) : Option (String × String) :=
  match splitListOn '=' part.data with
  | [] => none
  | [_] => none
  | name :: rest =>
    let value := List.intercalate ['='] rest
    if value.isEmpty then none else some (String.mk name, String.mk value)

/-- The flatten step `{k: v[0] for k, v in parameters.items()}` composed
with the grouping `parse_qs` performs: keep the first pair for each name,
in first-occurrence order. -/
def flattenFirstWins (seen : List String) : List (String × String) → List (String × String)
  | [] => []
  | p :: rest =>
    if seen.contains p.1 then flattenFirstWins seen rest
    else p :: flattenFirstWins (p.1 :: seen) rest

/-- `parse_qs` on the query string followed by the first-value flatten. -/
def parseQsFlat (query : String) : List (String × String) :=
  flattenFirstWins []
    (((splitListOn '&' query.data).map String.mk).filterMap parseQsPair)

/-- Python `s.split(sep, 1)` for a one-character separator: the part
before the first separator and the rest of the string. -/
def splitOnceAt (sep : Char) (s : String) : String × String :=
  match splitListOn sep s.data with
  | [] => (s, "")
  | [_] => (s, "")
  | base :: rest => (String.mk base, String.mk (List.intercalate [sep] rest))

/-! ## Log entries and `_process_log_entry`

A staged log record is a JSON object whose `_source` carries the URI
field, the `@timestamp` field and a geo-enrichment country.  The
`@timestamp` string is parsed by `datetime.fromisoformat` after the
`Z`-suffix rewrite; ISO-8601 text parsing itself is not load-bearing for
any claim, so the field is modelled as an already-parsed instant
(microseconds since the epoch), `none` when the field is missing — in
which case the Python code raises from `None.replace` and the caller
counts the record as failed. -/

/-- Microseconds in one day; `datetime.date()` truncates to this unit. -/
def usPerDay : Nat := 86400000000

/-- The date partition of a timestamp, as `timestamp.date()`. -/
def dayOf (ts : Nat) : Nat := ts / usPerDay

/-- The `_source` object of a staged record, dataload variant: field
`url.path`, `@timestamp`, and `geoip.country_name`. -/
structure LogSource where
  urlPath : String
  timestamp : Option Nat
  geoipCountry : Option String
deriving DecidableEq

/-- The per-record result of `_process_log_entry` (the `RequestData`
dataclass): endpoint string, event instant, optional country, flattened
parameter map. -/
structure RequestData where
  endpoint : String
  requestDate : Nat
  country : Option String
  parameters : List (String × String)
deriving DecidableEq

/-- dataload/load-data.py `_process_log_entry`: reads `url.path` into
`endpoint`; when the string contains `?` it splits once into
`base_url, query` and parses `query` into the flattened parameter map —
but `endpoint` is never reassigned to `base_url`, so the returned
endpoint keeps the query string.  Returns `none` when `@timestamp` is
missing (the Python code raises there and the caller records a failure). -/
def processLogEntry (src : LogSource) : Option RequestData :=
  let endpoint := src.urlPath
  let parameters :=
    if endpoint.data.contains '?' then
      let query := (splitOnceAt '?' endpoint).2
      parseQsFlat query
    else []
  match src.timestamp with
  | none => none
  | some ts => some ⟨endpoint, ts, src.geoipCountry, parameters⟩

/-- The `_source` object of the earlier root-level loader: field
`endpoint`, `@timestamp`, `ip2location.country_long`. -/
structure LegacyLogSource where
  endpoint : String
  timestamp : Option Nat
  countryLong : Option String
deriving DecidableEq

/-- load-data.py (repository root) `_process_log_entry`: same parsing,
except that after the split the code does `endpoint = base_url`, so the
returned endpoint is the URI path without the query string. -/
def processLogEntryLegacy (src : LegacyLogSource) : Option RequestData :=
  let endpoint := src.endpoint
  let (endpoint, parameters) :=
    if endpoint.data.contains '?' then
      let split := splitOnceAt '?' endpoint
      (split.1, parseQsFlat split.2)
    else (endpoint, [])
  match src.timestamp with
  | none => none
  | some ts => some ⟨endpoint, ts, src.countryLong, parameters⟩

/-- C3: evaluating both loaders on the record whose URI field is
`/search?q=diabetes&type=trait`.  The dataload loader parses the
parameters as `{q: diabetes, type: trait}` as described, but returns the
FULL string — query string included — as the endpoint, because the
`base_url` computed by the split is never assigned back; the earlier
root-level loader does assign it back and returns `/search`. -/
theorem endpoint_keeps_query_string :
    processLogEntry ⟨"/search?q=diabetes&type=trait", some 1000, none⟩ =
      some ⟨"/search?q=diabetes&type=trait", 1000, none,
        [("q", "diabetes"), ("type", "trait")]⟩ ∧
    (processLogEntry ⟨"/search?q=diabetes&type=trait", some 1000, none⟩).map
        RequestData.endpoint ≠ some "/search" ∧
    processLogEntryLegacy ⟨"/search?q=diabetes&type=trait", some 1000, none⟩ =
      some ⟨"/search", 1000, none, [("q", "diabetes"), ("type", "trait")]⟩ := by
  refine ⟨by decide, by decide, by decide⟩

/-! ## The relational schema and `_batch_insert_requests_and_parameters`

Tables are lists of rows plus the next serial id.  PostgreSQL serial ids
start at 1, so a fresh database carries `nextId = 1`; every generated id
is therefore positive (which is what makes the Python truthiness test
`if not endpoint_id` equivalent to a missing-key test). -/

/-- A `ProcessedRequest` (dataload/load-data.py dataclass): fact row data
with resolved dimension ids, plus the parameter map carried along for the
child insert. -/
structure ProcessedRequest where
  requestDatePartition : Nat
  resourceId : Nat
  endpointId : Nat
  requestTimestamp : Nat
  countryId : Option Nat
  parameters : List (String × String)
deriving DecidableEq

/-- A row of the `requests` fact table. -/
structure ReqRow where
  id : Nat
  requestDate : Nat
  resourceId : Nat
  endpointId : Nat
  requestTimestamp : Nat
  countryId : Option Nat
deriving DecidableEq

/-- A row of the `parameters` child table. -/
structure ParamRow where
  requestId : Nat
  requestDate : Nat
  paramName : String
  paramValue : String
deriving DecidableEq

/-- The fact side of the database touched by the batch insert. -/
structure DB where
  requests : List ReqRow
  parameters : List ParamRow
  nextId : Nat
deriving DecidableEq

/-- The conflict key of the `requests` table:
`(request_date, request_timestamp, endpoint_id, resource_id)`. -/
def ReqRow.factKey (r : ReqRow) : Nat × Nat × Nat × Nat :=
  (r.requestDate, r.requestTimestamp, r.endpointId, r.resourceId)

/-- The same key computed from a batch record. -/
def ProcessedRequest.factKey (r : ProcessedRequest) : Nat × Nat × Nat × Nat :=
  (r.requestDatePartition, r.requestTimestamp, r.endpointId, r.resourceId)

/-- Whether a `requests` table already holds a row with this conflict key. -/
def hasFactKey (rows : List ReqRow) (k : Nat × Nat × Nat × Nat) : Bool :=
  rows.any (fun row => row.factKey == k)

/-- The fact row a batch record inserts, under a given serial id. -/
def ProcessedRequest.toRow (r : ProcessedRequest) (id : Nat) : ReqRow :=
  ⟨id, r.requestDatePartition, r.resourceId, r.endpointId, r.requestTimestamp, r.countryId⟩

/-- The bulk
`INSERT INTO requests ... ON CONFLICT (request_date, request_timestamp, endpoint_id, resource_id) DO NOTHING RETURNING id, endpoint_id, request_timestamp`:
rows are attempted in batch order; a row whose conflict key is already in
the table (including a key inserted earlier in the same statement) is
skipped and returns nothing; an inserted row gets the next serial id and
contributes `(id, endpoint_id, request_timestamp)` to the RETURNING set. -/
def insertRequestsAux (db : DB) (ret : List (Nat × Nat × Nat)) :
    List ProcessedRequest → DB × List (Nat × Nat × Nat)
  | [] => (db, ret)
  | r :: rest =>
    if hasFactKey db.requests r.factKey then
      insertRequestsAux db ret rest
    else
      insertRequestsAux
        { db with
            requests := db.requests ++ [r.toRow db.nextId]
            nextId := db.nextId + 1 }
        (ret ++ [(db.nextId, r.endpointId, r.requestTimestamp)]) rest

/-- The request insert, started with an empty RETURNING set. -/
def insertRequests (db : DB) (batch : List ProcessedRequest) :
    DB × List (Nat × Nat × Nat) :=
  insertRequestsAux db [] batch

/-- The parameter-matching loop: for every RETURNING triple, scan the
batch for the first record with the same `endpoint_id` and
`request_timestamp` whose parameter map is nonempty (the Python condition
is `r.endpoint_id == endpoint_id and r.request_timestamp == timestamp and r.parameters`),
emit its parameters under the returned request id, and stop at that
record. -/
def paramRowsFor (batch : List ProcessedRequest) :
    List (Nat × Nat × Nat) → List ParamRow
  | [] => []
  | (rid, eid, ts) :: rest =>
    (match batch.find? (fun r =>
        r.endpointId == eid && r.requestTimestamp == ts && !r.parameters.isEmpty) with
     | some r => r.parameters.map (fun p => ⟨rid, r.requestDatePartition, p.1, p.2⟩)
     | none => []) ++ paramRowsFor batch rest

/-- `_batch_insert_requests_and_parameters`: empty batches return at once;
the request insert runs; when nothing was inserted (all duplicates) the
function returns before touching `parameters`; otherwise the matched
parameter rows are bulk inserted. -/
def batchInsertRequestsAndParameters (db : DB) (batch : List ProcessedRequest) : DB :=
  if batch.isEmpty then db
  else if (insertRequests db batch).2.isEmpty then (insertRequests db batch).1
  else
    { (insertRequests db batch).1 with
        parameters :=
          (insertRequests db batch).1.parameters ++
            paramRowsFor batch (insertRequests db batch).2 }

/-- Slicing `processed_requests[i:i + batch_size]` for
`i in range(0, len, batch_size)`: the list cut into chunks of `n` (the
code uses `n = 5000`). -/
def chunksOf (n : Nat) (l : List α) : List (List α) :=
  if h : l.isEmpty || n == 0 then []
  else
    l.take n :: chunksOf n (l.drop n)
termination_by l.length
decreasing_by
  simp only [Bool.or_eq_true, List.isEmpty_iff, beq_iff_eq, not_or] at h
  rcases l with _ | ⟨a, l⟩
  · exact absurd rfl h.1
  · simp only [List.length_drop, List.length_cons]
    omega

/-- The insert phase of `process_file`: the resolved records are cut into
chunks of 5000 and each chunk goes through
`_batch_insert_requests_and_parameters`, all inside one transaction. -/
def loadRequests (db : DB) (rs : List ProcessedRequest) : DB :=
  (chunksOf 5000 rs).foldl batchInsertRequestsAndParameters db

/-! ## Facts about the batch insert -/

theorem ProcessedRequest.factKey_toRow (r : ProcessedRequest) (i : Nat) :
    (r.toRow i).factKey = r.factKey := rfl

theorem hasFactKey_append (rows t : List ReqRow) (k : Nat × Nat × Nat × Nat)
    (h : hasFactKey rows k = true) : hasFactKey (rows ++ t) k = true := by
  simp only [hasFactKey, List.any_append, Bool.or_eq_true]
  exact Or.inl h

theorem insertRequestsAux_requests_prefix (rest : List ProcessedRequest) :
    ∀ (db : DB) (ret : List (Nat × Nat × Nat)),
      ∃ t, (insertRequestsAux db ret rest).1.requests = db.requests ++ t := by
  induction rest with
  | nil => intro db ret; exact ⟨[], by simp [insertRequestsAux]⟩
  | cons a l ih =>
    intro db ret
    simp only [insertRequestsAux]
    by_cases h : hasFactKey db.requests a.factKey
    · simpa [h] using ih db ret
    · obtain ⟨t, ht⟩ := ih
        { db with
            requests := db.requests ++ [a.toRow db.nextId]
            nextId := db.nextId + 1 }
        (ret ++ [(db.nextId, a.endpointId, a.requestTimestamp)])
      exact ⟨a.toRow db.nextId :: t, by simp [h, ht]⟩

theorem hasFactKey_insertRequestsAux (rest : List ProcessedRequest) (db : DB)
    (ret : List (Nat × Nat × Nat)) (k : Nat × Nat × Nat × Nat)
    (h : hasFactKey db.requests k = true) :
    hasFactKey (insertRequestsAux db ret rest).1.requests k = true := by
  obtain ⟨t, ht⟩ := insertRequestsAux_requests_prefix rest db ret
  rw [ht]
  exact hasFactKey_append _ _ _ h

theorem insertRequestsAux_keys_present (rest : List ProcessedRequest) :
    ∀ (db : DB) (ret : List (Nat × Nat × Nat)) (r : ProcessedRequest),
      r ∈ rest →
      hasFactKey (insertRequestsAux db ret rest).1.requests r.factKey = true := by
  induction rest with
  | nil => intro _ _ _ h; simp at h
  | cons a l ih =>
    intro db ret r hr
    rcases List.mem_cons.mp hr with rfl | hr
    · simp only [insertRequestsAux]
      by_cases h : hasFactKey db.requests r.factKey
      · simp only [h, if_true]
        exact hasFactKey_insertRequestsAux l db ret _ h
      · simp only [h, if_false]
        refine hasFactKey_insertRequestsAux l _ _ _ ?_
        simp [hasFactKey, ProcessedRequest.factKey_toRow]
    · simp only [insertRequestsAux]
      by_cases h : hasFactKey db.requests a.factKey
      · simp only [h, if_true]; exact ih db ret r hr
      · simp only [h, if_false]; exact ih _ _ r hr

theorem insertRequestsAux_of_all_present (rest : List ProcessedRequest) :
    ∀ (db : DB) (ret : List (Nat × Nat × Nat)),
      (∀ r ∈ rest, hasFactKey db.requests r.factKey = true) →
      insertRequestsAux db ret rest = (db, ret) := by
  induction rest with
  | nil => intro db ret _; rfl
  | cons a l ih =>
    intro db ret h
    have ha : hasFactKey db.requests a.factKey = true := h a (by simp)
    simp only [insertRequestsAux, ha, if_true]
    exact ih db ret (fun r hr => h r (by simp [hr]))

theorem batchInsert_requests_prefix (db : DB) (batch : List ProcessedRequest) :
    ∃ t, (batchInsertRequestsAndParameters db batch).requests = db.requests ++ t := by
  unfold batchInsertRequestsAndParameters
  by_cases hb : batch.isEmpty
  · exact ⟨[], by simp [hb]⟩
  · obtain ⟨t, ht⟩ := insertRequestsAux_requests_prefix batch db []
    refine ⟨t, ?_⟩
    rw [if_neg hb]
    split
    · exact ht
    · exact ht

theorem hasFactKey_batchInsert (db : DB) (batch : List ProcessedRequest)
    (k : Nat × Nat × Nat × Nat) (h : hasFactKey db.requests k = true) :
    hasFactKey (batchInsertRequestsAndParameters db batch).requests k = true := by
  obtain ⟨t, ht⟩ := batchInsert_requests_prefix db batch
  rw [ht]
  exact hasFactKey_append _ _ _ h

theorem batchInsert_keys_present (db : DB) (batch : List ProcessedRequest)
    (r : ProcessedRequest) (hr : r ∈ batch) :
    hasFactKey (batchInsertRequestsAndParameters db batch).requests r.factKey = true := by
  have hb : batch.isEmpty = false := by
    cases batch with
    | nil => simp at hr
    | cons a l => rfl
  have hkey := insertRequestsAux_keys_present batch db [] r hr
  unfold batchInsertRequestsAndParameters
  rw [if_neg (by simp [hb])]
  split
  · exact hkey
  · exact hkey

theorem batchInsert_of_all_present (db : DB) (batch : List ProcessedRequest)
    (h : ∀ r ∈ batch, hasFactKey db.requests r.factKey = true) :
    batchInsertRequestsAndParameters db batch = db := by
  unfold batchInsertRequestsAndParameters
  by_cases hb : batch.isEmpty
  · simp [hb]
  · have hins : insertRequests db batch = (db, []) :=
      insertRequestsAux_of_all_present batch db [] h
    rw [if_neg hb, hins]
    simp

theorem hasFactKey_foldl_batchInsert (chunks : List (List ProcessedRequest)) :
    ∀ (db : DB) (k : Nat × Nat × Nat × Nat),
      hasFactKey db.requests k = true →
      hasFactKey (chunks.foldl batchInsertRequestsAndParameters db).requests k = true := by
  induction chunks with
  | nil => intro db k h; exact h
  | cons c l ih =>
    intro db k h
    exact ih _ k (hasFactKey_batchInsert db c k h)

theorem foldl_batchInsert_keys_present (chunks : List (List ProcessedRequest)) :
    ∀ (db : DB) (c : List ProcessedRequest) (r : ProcessedRequest),
      c ∈ chunks → r ∈ c →
      hasFactKey (chunks.foldl batchInsertRequestsAndParameters db).requests r.factKey
        = true := by
  induction chunks with
  | nil => intro _ _ _ h; simp at h
  | cons c0 l ih =>
    intro db c r hc hr
    rcases List.mem_cons.mp hc with rfl | hc
    · exact hasFactKey_foldl_batchInsert l _ _ (batchInsert_keys_present db c r hr)
    · exact ih _ c r hc hr

theorem mem_of_mem_chunksOf (n : Nat) :
    ∀ (l : List α) (c : List α), c ∈ chunksOf n l → ∀ a ∈ c, a ∈ l := by
  intro l
  induction l using chunksOf.induct n with
  | case1 l h => intro c hc; rw [chunksOf, dif_pos h] at hc; simp at hc
  | case2 l h ih =>
    intro c hc a ha
    rw [chunksOf, dif_neg h] at hc
    rcases List.mem_cons.mp hc with rfl | hc
    · exact List.mem_of_mem_take ha
    · exact List.mem_of_mem_drop (ih c hc a ha)

theorem mem_chunksOf_of_mem (n : Nat) (hn : n ≠ 0) :
    ∀ (l : List α) (a : α), a ∈ l → ∃ c ∈ chunksOf n l, a ∈ c := by
  intro l
  induction l using chunksOf.induct n with
  | case1 l h =>
    intro a ha
    simp only [Bool.or_eq_true, List.isEmpty_iff, beq_iff_eq] at h
    rcases h with rfl | rfl
    · simp at ha
    · exact absurd rfl hn
  | case2 l h ih =>
    intro a ha
    rw [chunksOf, dif_neg h]
    by_cases hmem : a ∈ l.take n
    · exact ⟨l.take n, by simp, hmem⟩
    · have : a ∈ l.take n ++ l.drop n := by rw [List.take_append_drop]; exact ha
      have hdrop : a ∈ l.drop n := by
        rcases List.mem_append.mp this with h' | h'
        · exact absurd h' hmem
        · exact h'
      obtain ⟨c, hc, hac⟩ := ih a hdrop
      exact ⟨c, by simp [hc], hac⟩

theorem foldl_batchInsert_of_all_present (chunks : List (List ProcessedRequest)) :
    ∀ (db : DB),
      (∀ c ∈ chunks, ∀ r ∈ c, hasFactKey db.requests r.factKey = true) →
      chunks.foldl batchInsertRequestsAndParameters db = db := by
  induction chunks with
  | nil => intro db _; rfl
  | cons c l ih =>
    intro db h
    have hc : batchInsertRequestsAndParameters db c = db :=
      batchInsert_of_all_present db c (h c (by simp))
    simp only [List.foldl_cons, hc]
    exact ih db (fun c' hc' r hr => h c' (by simp [hc']) r hr)

theorem loadRequests_keys_present (db : DB) (rs : List ProcessedRequest)
    (r : ProcessedRequest) (hr : r ∈ rs) :
    hasFactKey (loadRequests db rs).requests r.factKey = true := by
  obtain ⟨c, hc, hrc⟩ := mem_chunksOf_of_mem 5000 (by norm_num) rs r hr
  exact foldl_batchInsert_keys_present _ db c r hc hrc

theorem loadRequests_idem (db : DB) (rs : List ProcessedRequest) :
    loadRequests (loadRequests db rs) rs = loadRequests db rs := by
  apply foldl_batchInsert_of_all_present
  intro c hc r hr
  exact loadRequests_keys_present db rs r (mem_of_mem_chunksOf 5000 rs c hc r hr)

theorem insertRequestsAux_parameters (rest : List ProcessedRequest) :
    ∀ (db : DB) (ret : List (Nat × Nat × Nat)),
      (insertRequestsAux db ret rest).1.parameters = db.parameters := by
  induction rest with
  | nil => intro db ret; rfl
  | cons a l ih =>
    intro db ret
    simp only [insertRequestsAux]
    by_cases h : hasFactKey db.requests a.factKey
    · simp only [h, if_true]; exact ih db ret
    · simp only [h, if_false]; exact ih _ _

/-- Structural facts about one bulk request insert, assuming every
existing id is below the serial counter: ids never decrease, appended
rows carry fresh ids, and every RETURNING triple names an id that occurs
exactly once in the resulting table. -/
theorem insertRequestsAux_spec (rest : List ProcessedRequest) :
    ∀ (db : DB) (ret : List (Nat × Nat × Nat)),
      (∀ r ∈ db.requests, r.id < db.nextId) →
      (∀ r ∈ (insertRequestsAux db ret rest).1.requests,
          r.id < (insertRequestsAux db ret rest).1.nextId) ∧
      db.nextId ≤ (insertRequestsAux db ret rest).1.nextId ∧
      (∃ t, (insertRequestsAux db ret rest).1.requests = db.requests ++ t ∧
        ∀ row ∈ t, db.nextId ≤ row.id) ∧
      (∃ d, (insertRequestsAux db ret rest).2 = ret ++ d ∧
        ∀ x ∈ d, db.nextId ≤ x.1 ∧
          ((insertRequestsAux db ret rest).1.requests.filter
              (fun row => row.id == x.1)).length = 1) := by
  induction rest with
  | nil =>
    intro db ret hid
    refine ⟨hid, le_refl _, ⟨[], by simp [insertRequestsAux], by simp⟩,
      ⟨[], by simp [insertRequestsAux], by simp⟩⟩
  | cons a l ih =>
    intro db ret hid
    simp only [insertRequestsAux]
    by_cases h : hasFactKey db.requests a.factKey
    · rw [if_pos h]
      exact ih db ret hid
    · rw [if_neg h]
      have hid2 : ∀ r ∈ db.requests ++ [a.toRow db.nextId], r.id < db.nextId + 1 := by
        intro r hr
        rcases List.mem_append.mp hr with hr | hr
        · exact Nat.lt_succ_of_lt (hid r hr)
        · simp only [List.mem_singleton] at hr
          subst hr
          exact Nat.lt_succ_self _
      obtain ⟨hA, hle, ⟨t2, ht2, ht2id⟩, ⟨d2, hd2, hd2spec⟩⟩ :=
        ih { db with
               requests := db.requests ++ [a.toRow db.nextId]
               nextId := db.nextId + 1 }
           (ret ++ [(db.nextId, a.endpointId, a.requestTimestamp)]) hid2
      refine ⟨hA, le_trans (Nat.le_succ _) hle, ⟨a.toRow db.nextId :: t2, ?_, ?_⟩,
        ⟨(db.nextId, a.endpointId, a.requestTimestamp) :: d2, ?_, ?_⟩⟩
      · simpa [List.append_assoc] using ht2
      · intro row hrow
        rcases List.mem_cons.mp hrow with rfl | hrow
        · exact le_refl _
        · exact le_trans (Nat.le_succ _) (ht2id row hrow)
      · simpa [List.append_assoc] using hd2
      · intro x hx
        rcases List.mem_cons.mp hx with rfl | hx
        · refine ⟨le_refl _, ?_⟩
          rw [ht2]
          simp only [List.append_assoc, List.filter_append, List.length_append]
          have h0 : (db.requests.filter (fun row => row.id == db.nextId)).length = 0 := by
            rw [List.length_eq_zero, List.filter_eq_nil_iff]
            intro row hrow
            simp only [beq_iff_eq]
            exact Nat.ne_of_lt (hid row hrow)
          have h2 : (t2.filter (fun row => row.id == db.nextId)).length = 0 := by
            rw [List.length_eq_zero, List.filter_eq_nil_iff]
            intro row hrow
            simp only [beq_iff_eq]
            have h3 : db.nextId + 1 ≤ row.id := ht2id row hrow
            omega
          simp only [h0, h2]
          simp [ProcessedRequest.toRow]
        · obtain ⟨hge, hcount⟩ := hd2spec x hx
          exact ⟨le_trans (Nat.le_succ _) hge, hcount⟩

/-- Every parameter row emitted by the matching loop is tagged with a
request id drawn from the RETURNING set. -/
theorem paramRowsFor_mem (batch : List ProcessedRequest) :
    ∀ (ins : List (Nat × Nat × Nat)) (p : ParamRow),
      p ∈ paramRowsFor batch ins → ∃ x ∈ ins, p.requestId = x.1 := by
  intro ins
  induction ins with
  | nil => intro p hp; simp [paramRowsFor] at hp
  | cons x rest ih =>
    intro p hp
    obtain ⟨rid, eid, ts⟩ := x
    simp only [paramRowsFor, List.mem_append] at hp
    rcases hp with hp | hp
    · refine ⟨(rid, eid, ts), by simp, ?_⟩
      rcases hfind : batch.find? (fun r =>
          r.endpointId == eid && r.requestTimestamp == ts && !r.parameters.isEmpty) with
        _ | r
      · rw [hfind] at hp; simp at hp
      · rw [hfind] at hp
        obtain ⟨q, _, hq⟩ := List.mem_map.mp hp
        rw [← hq]
    · obtain ⟨y, hy, hpy⟩ := ih p hp
      exact ⟨y, by simp [hy], hpy⟩

/-! ## Claim theorems for the batch insert -/

/-- C1: loading the same staged file twice — re-running the insert phase
of `process_file` on the same resolved record list — leaves the database
exactly as after the first run: zero net new `requests` rows and zero net
new `parameters` rows, by virtue of the conflict-do-nothing key
`(request_date, request_timestamp, endpoint_id, resource_id)` together
with the RETURNING filter that guards the parameter insert. -/
theorem load_same_file_twice_is_noop (db : DB) (rs : List ProcessedRequest) :
    loadRequests (loadRequests db rs) rs = loadRequests db rs ∧
    (loadRequests (loadRequests db rs) rs).requests.length =
      (loadRequests db rs).requests.length ∧
    (loadRequests (loadRequests db rs) rs).parameters.length =
      (loadRequests db rs).parameters.length := by
  refine ⟨loadRequests_idem db rs, ?_, ?_⟩ <;> rw [loadRequests_idem db rs]

/-- C4: parameter child rows are emitted only for request rows actually
returned by the conflict-do-nothing bulk insert.  Under the serial-id
invariant, after one batch insert the pre-existing parameter rows are
untouched, and every newly inserted parameter row references by id
exactly one request row — a row inserted by this same operation, never a
pre-existing one (in particular never a request that was rejected as a
duplicate). -/
theorem parameters_only_for_inserted_requests (db : DB)
    (batch : List ProcessedRequest)
    (hid : ∀ r ∈ db.requests, r.id < db.nextId) :
    ((batchInsertRequestsAndParameters db batch).parameters.take
        db.parameters.length = db.parameters) ∧
    ∀ p ∈ (batchInsertRequestsAndParameters db batch).parameters.drop
        db.parameters.length,
      ((batchInsertRequestsAndParameters db batch).requests.filter
          (fun row => row.id == p.requestId)).length = 1 ∧
      ∀ row ∈ db.requests, row.id ≠ p.requestId := by
  unfold batchInsertRequestsAndParameters
  by_cases hb : batch.isEmpty
  · rw [if_pos hb]
    constructor
    · exact List.take_length _
    · simp
  · rw [if_neg hb]
    have hpar : (insertRequests db batch).1.parameters = db.parameters :=
      insertRequestsAux_parameters batch db []
    by_cases hs : (insertRequests db batch).2.isEmpty
    · rw [if_pos hs, hpar]
      constructor
      · exact List.take_length _
      · simp
    · rw [if_neg hs]
      obtain ⟨_, _, _, ⟨d, hd, hdspec⟩⟩ := insertRequestsAux_spec batch db [] hid
      constructor
      · show ((insertRequests db batch).1.parameters ++ _).take _ = _
        rw [hpar, List.take_left]
      · intro p hp
        have hp' : p ∈ paramRowsFor batch (insertRequests db batch).2 := by
          revert hp
          show p ∈ ((insertRequests db batch).1.parameters ++ _).drop _ → _
          rw [hpar, List.drop_left]
          exact id
        obtain ⟨x, hx, hpx⟩ := paramRowsFor_mem batch _ p hp'
        have hx' : x ∈ d := by
          rw [show (insertRequests db batch).2 = d from by simpa using hd] at hx
          exact hx
        obtain ⟨hge, hcount⟩ := hdspec x hx'
        refine ⟨by rw [hpx]; exact hcount, ?_⟩
        intro row hrow
        have := hid row hrow
        rw [hpx]
        omega

/-- C4 witness: the theorem applied to the empty database (serial counter
1) and a one-record batch carrying one parameter. -/
theorem parameters_only_for_inserted_requests_witness :
    (∀ r ∈ (⟨[], [], 1⟩ : DB).requests, r.id < (⟨[], [], 1⟩ : DB).nextId) ∧
    (((batchInsertRequestsAndParameters ⟨[], [], 1⟩
        [⟨0, 1, 7, 100, none, [("q", "x")]⟩]).parameters.take 0 = []) ∧
      ∀ p ∈ (batchInsertRequestsAndParameters ⟨[], [], 1⟩
          [⟨0, 1, 7, 100, none, [("q", "x")]⟩]).parameters.drop 0,
        ((batchInsertRequestsAndParameters ⟨[], [], 1⟩
            [⟨0, 1, 7, 100, none, [("q", "x")]⟩]).requests.filter
            (fun row => row.id == p.requestId)).length = 1 ∧
        ∀ row ∈ (⟨[], [], 1⟩ : DB).requests, row.id ≠ p.requestId) :=
  ⟨by simp,
    parameters_only_for_inserted_requests ⟨[], [], 1⟩
      [⟨0, 1, 7, 100, none, [("q", "x")]⟩] (by simp)⟩

/-- C10 counterexample input: two records with the same
`(endpoint_id, request_timestamp)`; the earlier record has an empty
parameter map, the later a nonempty one. -/
def dupKeyBatch : List ProcessedRequest :=
  [⟨0, 1, 7, 100, none, []⟩, ⟨0, 1, 7, 100, none, [("q", "x")]⟩]

/-- C10 counterexample: on `dupKeyBatch` only one request row survives
(the records share the conflict key), and the parameters inserted for it
are those of the LATER record — the matching loop skipped the earlier
record because its parameter map is empty, so step (match solely by key,
first record wins) does not describe the code. -/
theorem param_match_skips_empty_first_record :
    (batchInsertRequestsAndParameters ⟨[], [], 1⟩ dupKeyBatch).requests.length = 1 ∧
    (batchInsertRequestsAndParameters ⟨[], [], 1⟩ dupKeyBatch).parameters =
      [⟨1, 0, "q", "x"⟩] := by
  constructor <;> decide

/-- C10 amended: a RETURNING triple is matched back to the source batch
by `(endpoint_id, request_timestamp)` restricted to records with a
NONEMPTY parameter map, first such record in batch order; when the
returned ids are distinct, the parameter rows tagged with a returned id
are exactly the parameters of that first nonempty-map match. -/
theorem param_match_first_nonempty_wins (batch : List ProcessedRequest)
    (ins : List (Nat × Nat × Nat))
    (hnd : (ins.map (fun x => x.1)).Nodup)
    (rid eid : Nat) (ts : Nat) (hmem : (rid, eid, ts) ∈ ins)
    (r1 : ProcessedRequest)
    (hfind : batch.find? (fun r =>
        r.endpointId == eid && r.requestTimestamp == ts &&
          !r.parameters.isEmpty) = some r1) :
    (paramRowsFor batch ins).filter (fun p => p.requestId == rid) =
      r1.parameters.map (fun q => ⟨rid, r1.requestDatePartition, q.1, q.2⟩) := by
  induction ins with
  | nil => simp at hmem
  | cons x rest ih =>
    simp only [List.map_cons, List.nodup_cons] at hnd
    rcases List.mem_cons.mp hmem with heq | hmem'
    · subst heq
      simp only [paramRowsFor, hfind, List.filter_append]
      have hmap : (r1.parameters.map
          (fun q => (⟨rid, r1.requestDatePartition, q.1, q.2⟩ : ParamRow))).filter
            (fun p => p.requestId == rid) =
          r1.parameters.map (fun q => ⟨rid, r1.requestDatePartition, q.1, q.2⟩) := by
        rw [List.filter_eq_self]
        intro p hp
        obtain ⟨q, _, hq⟩ := List.mem_map.mp hp
        rw [← hq]
        simp
      have hrest : (paramRowsFor batch rest).filter (fun p => p.requestId == rid) = [] := by
        rw [List.filter_eq_nil_iff]
        intro p hp
        obtain ⟨y, hy, hpy⟩ := paramRowsFor_mem batch rest p hp
        have : rid ≠ p.requestId := by
          intro hcontra
          exact hnd.1 (by rw [hcontra, hpy]; exact List.mem_map_of_mem (fun x => x.1) hy)
        simp [beq_iff_eq]
        intro hcontra
        exact this hcontra.symm
      rw [hmap, hrest, List.append_nil]
    · obtain ⟨xid, xeid, xts⟩ := x
      have hne : xid ≠ rid := by
        intro hcontra
        exact hnd.1 (by rw [hcontra]; exact List.mem_map_of_mem (fun x => x.1) hmem')
      simp only [paramRowsFor, List.filter_append]
      have hhead : ∀ (ys : List ParamRow),
          (ys = match batch.find? (fun r =>
              r.endpointId == xeid && r.requestTimestamp == xts &&
                !r.parameters.isEmpty) with
            | some r => r.parameters.map (fun p => ⟨xid, r.requestDatePartition, p.1, p.2⟩)
            | none => []) →
          ys.filter (fun p => p.requestId == rid) = [] := by
        intro ys hys
        rw [List.filter_eq_nil_iff]
        intro p hp
        rcases hf : batch.find? (fun r =>
            r.endpointId == xeid && r.requestTimestamp == xts &&
              !r.parameters.isEmpty) with _ | r
        · rw [hf] at hys; subst hys; simp at hp
        · rw [hf] at hys; subst hys
          obtain ⟨q, _, hq⟩ := List.mem_map.mp hp
          rw [← hq]
          simpa using hne
      rw [hhead _ rfl, List.nil_append]
      exact ih hnd.2 hmem'

/-- C10 amended-claim witness: the characterization applied to
`dupKeyBatch` with the RETURNING set the insert actually produces. -/
theorem param_match_first_nonempty_wins_witness :
    (([(1, 7, 100)].map (fun x : Nat × Nat × Nat => x.1)).Nodup ∧
      ((1 : Nat), (7 : Nat), (100 : Nat)) ∈ [((1 : Nat), (7 : Nat), (100 : Nat))] ∧
      dupKeyBatch.find? (fun r =>
        r.endpointId == 7 && r.requestTimestamp == 100 &&
          !r.parameters.isEmpty) = some ⟨0, 1, 7, 100, none, [("q", "x")]⟩) ∧
    (paramRowsFor dupKeyBatch [(1, 7, 100)]).filter (fun p => p.requestId == 1) =
      [("q", "x")].map (fun q => ⟨1, 0, q.1, q.2⟩) :=
  ⟨⟨by decide, by decide, by decide⟩,
    param_match_first_nonempty_wins dupKeyBatch [(1, 7, 100)] (by decide) 1 7 100
      (by decide) ⟨0, 1, 7, 100, none, [("q", "x")]⟩ (by decide)⟩

/-! ## Dimension resolution: `_batch_get_or_create_endpoints`,
`_batch_get_or_create_countries`, and the second pass of `process_file`

The unique constraints are `endpoints(path, resource_id)` and
`countries(name)`.  Mappings handed back to the loader are association
lists looked up by first match (the Python dicts have unique keys at
construction).  The Python set holding the requested keys only removes
duplicates; order is immaterial here because the conflict-ignore insert
skips a key that an earlier iteration already inserted, so the set is
modelled as the original list. -/

/-- A row of the `endpoints` dimension table. -/
structure EndpointRow where
  id : Nat
  path : String
  resourceId : Nat
deriving DecidableEq

/-- A row of the `countries` dimension table. -/
structure CountryRow where
  id : Nat
  name : String
deriving DecidableEq

/-- The dimension side of the database. -/
structure DimDB where
  endpoints : List EndpointRow
  countries : List CountryRow
  nextEndpointId : Nat
  nextCountryId : Nat
deriving DecidableEq

/-- Whether the `endpoints` table holds a row with this natural key. -/
def hasEndpoint (rows : List EndpointRow) (path : String) (rid : Nat) : Bool :=
  rows.any (fun e => e.path == path && e.resourceId == rid)

/-- Whether the `countries` table holds a row with this name. -/
def hasCountry (rows : List CountryRow) (name : String) : Bool :=
  rows.any (fun c => c.name == name)

/-- `INSERT INTO endpoints (path, resource_id) VALUES ... ON CONFLICT (path, resource_id) DO NOTHING`
over the requested paths for one resource. -/
def insertEndpointsIgnore (db : DimDB) (rid : Nat) : List String → DimDB
  | [] => db
  | p :: rest =>
    if hasEndpoint db.endpoints p rid then insertEndpointsIgnore db rid rest
    else
      insertEndpointsIgnore
        { db with
            endpoints := db.endpoints ++ [⟨db.nextEndpointId, p, rid⟩]
            nextEndpointId := db.nextEndpointId + 1 } rid rest

/-- `SELECT id, path FROM endpoints WHERE resource_id = %s AND path = ANY(%s)`,
shaped into the `{path: id}` dictionary. -/
def selectEndpoints (db : DimDB) (paths : List String) (rid : Nat) : List (String × Nat) :=
  (db.endpoints.filter (fun e => e.resourceId == rid && paths.contains e.path)).map
    (fun e => (e.path, e.id))

/-- `_batch_get_or_create_endpoints`: empty input returns the empty
mapping; otherwise insert-ignore all requested paths, then select the id
set back in one query. -/
def batchGetOrCreateEndpoints (db : DimDB) (paths : List String) (rid : Nat) :
    DimDB × List (String × Nat) :=
  if paths.isEmpty then (db, [])
  else
    (insertEndpointsIgnore db rid paths,
      selectEndpoints (insertEndpointsIgnore db rid paths) paths rid)

/-- `INSERT INTO countries (name) VALUES ... ON CONFLICT (name) DO NOTHING`. -/
def insertCountriesIgnore (db : DimDB) : List String → DimDB
  | [] => db
  | c :: rest =>
    if hasCountry db.countries c then insertCountriesIgnore db rest
    else
      insertCountriesIgnore
        { db with
            countries := db.countries ++ [⟨db.nextCountryId, c⟩]
            nextCountryId := db.nextCountryId + 1 } rest

/-- The final dictionary comprehension
`{c: self.country_cache[c] for c in countries if c}`: empty names are
skipped by the truthiness test; a name absent from the cache raises
`KeyError`, modelled as `none`. -/
def lookupMapping (cache : List (String × Nat)) : List String → Option (List (String × Nat))
  | [] => some []
  | c :: rest =>
    if c == "" then lookupMapping cache rest
    else
      match cache.lookup c with
      | none => none
      | some i => (lookupMapping cache rest).map (fun m => (c, i) :: m)

/-- `new_countries = {c for c in countries if c and c not in self.country_cache}`. -/
def newCountriesOf (cache : List (String × Nat)) (countries : List String) : List String :=
  countries.filter (fun c => !(c == "") && (cache.lookup c).isNone)

/-- The select-back `SELECT id, name FROM countries WHERE name = ANY(%s)`
over the freshly inserted names, shaped into `(name, id)` pairs. -/
def countriesFetched (db : DimDB) (cache : List (String × Nat))
    (countries : List String) : List (String × Nat) :=
  ((insertCountriesIgnore db (newCountriesOf cache countries)).countries.filter
      (fun row => (newCountriesOf cache countries).contains row.name)).map
    (fun row => (row.name, row.id))

/-- `_batch_get_or_create_countries`: filter the requested names down to
the truthy ones missing from the cache; insert-ignore those; select them
back and append them to the cache (no key collision: they were not cached);
finally build the returned mapping from the cache. -/
def batchGetOrCreateCountries (db : DimDB) (cache : List (String × Nat))
    (countries : List String) :
    DimDB × List (String × Nat) × Option (List (String × Nat)) :=
  if (newCountriesOf cache countries).isEmpty then
    (db, cache, lookupMapping cache countries)
  else
    (insertCountriesIgnore db (newCountriesOf cache countries),
      cache ++ countriesFetched db cache countries,
      lookupMapping (cache ++ countriesFetched db cache countries) countries)

/-- The second pass of `process_file`: for each parsed record, look up
the endpoint id; the Python truthiness test `if not endpoint_id` drops
the record when the key is missing (or the id is 0, which serials never
produce) and processing continues; otherwise the record is emitted with
its resolved ids (`country_id` stays `NULL` for a missing or empty
country and for a country name absent from its mapping, since dict `.get`
returns `None`). -/
def secondPass (parsed : List RequestData) (resourceId : Nat)
    (em cm : List (String × Nat)) : List ProcessedRequest :=
  parsed.filterMap (fun rd =>
    match em.lookup rd.endpoint with
    | none => none
    | some eid =>
      if eid == 0 then none
      else
        some ⟨dayOf rd.requestDate, resourceId, eid, rd.requestDate,
          (match rd.country with
           | none => none
           | some c => if c == "" then none else cm.lookup c),
          rd.parameters⟩)

/-- Whether a record would survive the endpoint-id truthiness test. -/
def resolvable (em : List (String × Nat)) (rd : RequestData) : Bool :=
  match em.lookup rd.endpoint with
  | none => false
  | some eid => !(eid == 0)

/-! ## Facts about dimension resolution -/

theorem lookup_isSome_of_mem {β : Type} (l : List (String × β)) (k : String) (v : β)
    (h : (k, v) ∈ l) : (l.lookup k).isSome = true := by
  induction l with
  | nil => simp at h
  | cons p rest ih =>
    obtain ⟨k', v'⟩ := p
    rcases List.mem_cons.mp h with heq | hmem
    · obtain ⟨rfl, rfl⟩ := Prod.mk.injEq .. ▸ heq
      simp [List.lookup_cons]
    · rw [List.lookup_cons]
      rcases hbeq : k == k' with _ | _
      · simpa using ih hmem
      · simp

theorem insertEndpointsIgnore_prefix (paths : List String) :
    ∀ (db : DimDB) (rid : Nat),
      ∃ t, (insertEndpointsIgnore db rid paths).endpoints = db.endpoints ++ t := by
  induction paths with
  | nil => intro db rid; exact ⟨[], by simp [insertEndpointsIgnore]⟩
  | cons p rest ih =>
    intro db rid
    simp only [insertEndpointsIgnore]
    by_cases h : hasEndpoint db.endpoints p rid
    · simpa [h] using ih db rid
    · obtain ⟨t, ht⟩ := ih
        { db with
            endpoints := db.endpoints ++ [⟨db.nextEndpointId, p, rid⟩]
            nextEndpointId := db.nextEndpointId + 1 } rid
      exact ⟨⟨db.nextEndpointId, p, rid⟩ :: t, by simp [h, ht]⟩

theorem hasEndpoint_append (rows t : List EndpointRow) (p : String) (rid : Nat)
    (h : hasEndpoint rows p rid = true) : hasEndpoint (rows ++ t) p rid = true := by
  simp only [hasEndpoint, List.any_append, Bool.or_eq_true]
  exact Or.inl h

theorem insertEndpointsIgnore_present (paths : List String) :
    ∀ (db : DimDB) (rid : Nat) (p : String), p ∈ paths →
      hasEndpoint (insertEndpointsIgnore db rid paths).endpoints p rid = true := by
  induction paths with
  | nil => intro _ _ _ h; simp at h
  | cons q rest ih =>
    intro db rid p hp
    rcases List.mem_cons.mp hp with rfl | hp
    · simp only [insertEndpointsIgnore]
      by_cases h : hasEndpoint db.endpoints p rid
      · rw [if_pos h]
        obtain ⟨t, ht⟩ := insertEndpointsIgnore_prefix rest db rid
        rw [ht]
        exact hasEndpoint_append _ _ _ _ h
      · rw [if_neg h]
        obtain ⟨t, ht⟩ := insertEndpointsIgnore_prefix rest
          { db with
              endpoints := db.endpoints ++ [⟨db.nextEndpointId, p, rid⟩]
              nextEndpointId := db.nextEndpointId + 1 } rid
        rw [ht]
        refine hasEndpoint_append _ _ _ _ ?_
        simp [hasEndpoint]
    · simp only [insertEndpointsIgnore]
      by_cases h : hasEndpoint db.endpoints q rid
      · rw [if_pos h]; exact ih db rid p hp
      · rw [if_neg h]; exact ih _ rid p hp

theorem endpoint_mapping_total (db : DimDB) (paths : List String) (rid : Nat) :
    ∀ p ∈ paths,
      (((batchGetOrCreateEndpoints db paths rid).2).lookup p).isSome = true := by
  intro p hp
  have hne : paths.isEmpty = false := by
    cases paths with
    | nil => simp at hp
    | cons a l => rfl
  unfold batchGetOrCreateEndpoints
  rw [if_neg (by simp [hne])]
  have hpres := insertEndpointsIgnore_present paths db rid p hp
  simp only [hasEndpoint, List.any_eq_true, Bool.and_eq_true, beq_iff_eq] at hpres
  obtain ⟨e, he, hep, herid⟩ := hpres
  refine lookup_isSome_of_mem _ p e.id ?_
  simp only [selectEndpoints, List.mem_map]
  refine ⟨e, ?_, by rw [hep]⟩
  simp only [List.mem_filter, Bool.and_eq_true, beq_iff_eq]
  exact ⟨he, herid, by rw [hep]; exact List.elem_eq_true_of_mem hp⟩

theorem insertCountriesIgnore_prefix (names : List String) :
    ∀ (db : DimDB),
      ∃ t, (insertCountriesIgnore db names).countries = db.countries ++ t := by
  induction names with
  | nil => intro db; exact ⟨[], by simp [insertCountriesIgnore]⟩
  | cons c rest ih =>
    intro db
    simp only [insertCountriesIgnore]
    by_cases h : hasCountry db.countries c
    · simpa [h] using ih db
    · obtain ⟨t, ht⟩ := ih
        { db with
            countries := db.countries ++ [⟨db.nextCountryId, c⟩]
            nextCountryId := db.nextCountryId + 1 }
      exact ⟨⟨db.nextCountryId, c⟩ :: t, by simp [h, ht]⟩

theorem hasCountry_append (rows t : List CountryRow) (c : String)
    (h : hasCountry rows c = true) : hasCountry (rows ++ t) c = true := by
  simp only [hasCountry, List.any_append, Bool.or_eq_true]
  exact Or.inl h

theorem insertCountriesIgnore_present (names : List String) :
    ∀ (db : DimDB) (c : String), c ∈ names →
      hasCountry (insertCountriesIgnore db names).countries c = true := by
  induction names with
  | nil => intro _ _ h; simp at h
  | cons q rest ih =>
    intro db c hc
    rcases List.mem_cons.mp hc with rfl | hc
    · simp only [insertCountriesIgnore]
      by_cases h : hasCountry db.countries c
      · rw [if_pos h]
        obtain ⟨t, ht⟩ := insertCountriesIgnore_prefix rest db
        rw [ht]
        exact hasCountry_append _ _ _ h
      · rw [if_neg h]
        obtain ⟨t, ht⟩ := insertCountriesIgnore_prefix rest
          { db with
              countries := db.countries ++ [⟨db.nextCountryId, c⟩]
              nextCountryId := db.nextCountryId + 1 }
        rw [ht]
        refine hasCountry_append _ _ _ ?_
        simp [hasCountry]
    · simp only [insertCountriesIgnore]
      by_cases h : hasCountry db.countries q
      · rw [if_pos h]; exact ih db c hc
      · rw [if_neg h]; exact ih _ c hc

theorem lookupMapping_total (cache : List (String × Nat)) (countries : List String)
    (h : ∀ c ∈ countries, c ≠ "" → (cache.lookup c).isSome = true) :
    ∃ m, lookupMapping cache countries = some m ∧
      ∀ c ∈ countries, c ≠ "" → (m.lookup c).isSome = true := by
  induction countries with
  | nil => exact ⟨[], rfl, by simp⟩
  | cons c rest ih =>
    obtain ⟨m, hm, hmtotal⟩ := ih (fun c' hc' hne => h c' (by simp [hc']) hne)
    by_cases hc : c = ""
    · refine ⟨m, ?_, ?_⟩
      · simp only [lookupMapping, hc]
        simpa using hm
      · intro c' hc' hne
        rcases List.mem_cons.mp hc' with rfl | hc'
        · exact absurd hc hne
        · exact hmtotal c' hc' hne
    · have hsome := h c (by simp) hc
      rcases hl : cache.lookup c with _ | i
      · rw [hl] at hsome; simp at hsome
      · refine ⟨(c, i) :: m, ?_, ?_⟩
        · simp only [lookupMapping]
          rw [if_neg (by simpa using hc), hl, hm]
          rfl
        · intro c' hc' hne
          rcases List.mem_cons.mp hc' with rfl | hc'
          · simp [List.lookup_cons]
          · rw [List.lookup_cons]
            rcases hbeq : c' == c with _ | _
            · simpa using hmtotal c' hc' hne
            · simp

theorem country_mapping_total (db : DimDB) (cache : List (String × Nat))
    (countries : List String) :
    ∃ m, (batchGetOrCreateCountries db cache countries).2.2 = some m ∧
      ∀ c ∈ countries, c ≠ "" → (m.lookup c).isSome = true := by
  unfold batchGetOrCreateCountries
  by_cases hnew : (newCountriesOf cache countries).isEmpty
  · rw [if_pos hnew]
    refine lookupMapping_total cache countries ?_
    intro c hc hne
    rcases hl : (cache.lookup c).isSome with _ | _
    · exfalso
      have hmem : c ∈ newCountriesOf cache countries := by
        simp only [newCountriesOf, List.mem_filter, Bool.and_eq_true, Bool.not_eq_true']
        refine ⟨hc, by simpa using hne, ?_⟩
        simp [Option.isNone_iff_eq_none, ← Option.not_isSome_iff_eq_none, hl]
      rw [List.isEmpty_iff] at hnew
      rw [hnew] at hmem
      simp at hmem
    · rfl
  · rw [if_neg hnew]
    refine lookupMapping_total _ countries ?_
    intro c hc hne
    rw [List.lookup_append]
    rcases hl : cache.lookup c with _ | i
    · have hmem : c ∈ newCountriesOf cache countries := by
        simp only [newCountriesOf, List.mem_filter, Bool.and_eq_true, Bool.not_eq_true']
        exact ⟨hc, by simpa using hne, by simp [hl]⟩
      have hpres := insertCountriesIgnore_present (newCountriesOf cache countries) db c hmem
      simp only [hasCountry, List.any_eq_true, beq_iff_eq] at hpres
      obtain ⟨row, hrow, hname⟩ := hpres
      have hlk : ((countriesFetched db cache countries).lookup c).isSome = true := by
        refine lookup_isSome_of_mem _ c row.id ?_
        simp only [countriesFetched, List.mem_map]
        refine ⟨row, ?_, by rw [hname]⟩
        simp only [List.mem_filter]
        exact ⟨hrow, by rw [hname]; exact List.elem_eq_true_of_mem hmem⟩
      rcases hf : (countriesFetched db cache countries).lookup c with _ | j
      · rw [hf] at hlk; simp at hlk
      · rfl
    · rfl

/-- Characterization of the second pass: exactly the records that pass
the endpoint-id truthiness test survive, each resolved in place; records
whose endpoint is missing from the mapping are dropped without aborting
the rest of the file. -/
theorem secondPass_eq_filter_map (parsed : List RequestData) (resourceId : Nat)
    (em cm : List (String × Nat)) :
    secondPass parsed resourceId em cm =
      (parsed.filter (resolvable em)).map (fun rd =>
        ⟨dayOf rd.requestDate, resourceId, (em.lookup rd.endpoint).getD 0,
          rd.requestDate,
          (match rd.country with
           | none => none
           | some c => if c == "" then none else cm.lookup c),
          rd.parameters⟩) := by
  induction parsed with
  | nil => rfl
  | cons rd rest ih =>
    rcases hl : em.lookup rd.endpoint with _ | eid
    · simp only [secondPass, List.filterMap_cons, List.filter_cons, resolvable, hl] at ih ⊢
      simpa using ih
    · by_cases heid : eid = 0
      · subst heid
        simp only [secondPass, List.filterMap_cons, List.filter_cons, resolvable, hl] at ih ⊢
        simpa using ih
      · simp only [secondPass, List.filterMap_cons, List.filter_cons, resolvable, hl] at ih ⊢
        have hb : (eid == 0) = false := by simpa using heid
        simp only [hb, Bool.not_false, if_true, if_false, Bool.false_eq_true, List.map_cons,
          List.cons.injEq]
        exact ⟨by rw [hl]; rfl, ih⟩

/-- C5: after each batch dimension resolution every natural key passed in
appears in the returned mapping (endpoints per resource; truthy country
names — the country call also never raises, its dictionary build always
succeeds); and in the second pass a record whose endpoint key does not
resolve is dropped from the fact insert while every other record is kept
and resolved — the pass is total, so a missing key never aborts the
file. -/
theorem dimension_resolution_total_and_dropping (db : DimDB) (paths : List String)
    (rid : Nat) (cache : List (String × Nat)) (countries : List String)
    (parsed : List RequestData) (resourceId : Nat) (em cm : List (String × Nat)) :
    (∀ p ∈ paths,
      (((batchGetOrCreateEndpoints db paths rid).2).lookup p).isSome = true) ∧
    (∃ m, (batchGetOrCreateCountries db cache countries).2.2 = some m ∧
      ∀ c ∈ countries, c ≠ "" → (m.lookup c).isSome = true) ∧
    secondPass parsed resourceId em cm =
      (parsed.filter (resolvable em)).map (fun rd =>
        ⟨dayOf rd.requestDate, resourceId, (em.lookup rd.endpoint).getD 0,
          rd.requestDate,
          (match rd.country with
           | none => none
           | some c => if c == "" then none else cm.lookup c),
          rd.parameters⟩) :=
  ⟨endpoint_mapping_total db paths rid,
    country_mapping_total db cache countries,
    secondPass_eq_filter_map parsed resourceId em cm⟩

/-- C5 witness: the theorem instantiated at a one-path, one-country,
two-record input (one record resolvable, one not). -/
theorem dimension_resolution_total_and_dropping_witness :
    (((batchGetOrCreateEndpoints ⟨[], [], 1, 1⟩ ["/a"] 1).2.lookup "/a").isSome
        = true) ∧
    (∃ m, (batchGetOrCreateCountries ⟨[], [], 1, 1⟩ [] ["France"]).2.2 = some m ∧
      ∀ c ∈ ["France"], c ≠ "" → (m.lookup c).isSome = true) ∧
    secondPass [⟨"/a", 5, none, []⟩, ⟨"/b", 6, none, []⟩] 1 [("/a", 3)] [] =
      (([⟨"/a", 5, none, []⟩, ⟨"/b", 6, none, []⟩] :
          List RequestData).filter (resolvable [("/a", 3)])).map (fun rd =>
        ⟨dayOf rd.requestDate, 1, ((List.lookup rd.endpoint [("/a", 3)]).getD 0),
          rd.requestDate,
          (match rd.country with
           | none => none
           | some c => if c == "" then none else List.lookup c []),
          rd.parameters⟩) :=
  ⟨(dimension_resolution_total_and_dropping ⟨[], [], 1, 1⟩ ["/a"] 1 [] ["France"]
      [⟨"/a", 5, none, []⟩, ⟨"/b", 6, none, []⟩] 1 [("/a", 3)] []).1 "/a" (by decide),
    (dimension_resolution_total_and_dropping ⟨[], [], 1, 1⟩ ["/a"] 1 [] ["France"]
      [⟨"/a", 5, none, []⟩, ⟨"/b", 6, none, []⟩] 1 [("/a", 3)] []).2.1,
    (dimension_resolution_total_and_dropping ⟨[], [], 1, 1⟩ ["/a"] 1 [] ["France"]
      [⟨"/a", 5, none, []⟩, ⟨"/b", 6, none, []⟩] 1 [("/a", 3)] []).2.2⟩

/-! ## The `process_file` commit protocol

`process_file` wraps one file in a try/except: parse the JSON, resolve
dimensions, run the chunked insert, then `conn.commit()` and only then
`shutil.move` the file to the processed area; any exception inside the
try triggers `conn.rollback()` and leaves the file where it was.  The
transaction is modelled the way PostgreSQL gives it to the code: work
happens on a transaction-local copy of the state that becomes the
committed state only at the commit call and is discarded on rollback.
Exceptions are injected by a failure oracle saying whether parsing or
resolution raises and at which chunk index (if any) the insert raises. -/

/-- The externally visible effects of one `process_file` call, in program
order. -/
inductive LoadAction
  | commit
  | move
  | rollback
deriving DecidableEq

/-- The committed database plus whether the staged file is still in the
pending area. -/
structure LoaderWorld where
  committed : DB
  filePending : Bool
deriving DecidableEq

/-- The injected exceptions: does `json.load`/parsing raise, does
dimension resolution raise, and before which chunk does the bulk insert
raise (if any). -/
structure FailureSpec where
  parseFails : Bool
  resolveFails : Bool
  insertFailsAt : Option Nat
deriving DecidableEq

/-- The chunk loop inside the transaction: chunks are applied in order to
the transaction-local state; an injected exception at chunk index `i`
aborts the loop, discarding the transaction-local state. -/
def runChunks (db : DB) (chunks : List (List ProcessedRequest))
    (failAt : Option Nat) (i : Nat) : Except Unit DB :=
  match chunks with
  | [] => .ok db
  | c :: rest =>
    if failAt = some i then .error ()
    else runChunks (batchInsertRequestsAndParameters db c) rest failAt (i + 1)

/-- The body of the try block up to (not including) the commit: parse,
resolve, insert all chunks. -/
def runTransaction (db : DB) (rs : List ProcessedRequest) (fs : FailureSpec) :
    Except Unit DB :=
  if fs.parseFails then .error ()
  else if fs.resolveFails then .error ()
  else runChunks db (chunksOf 5000 rs) fs.insertFailsAt 0

/-- `process_file`: on success of the try body, commit the transaction
and then move the file; on an exception, roll back (the committed state
is untouched) and leave the file pending. -/
def processFile (w : LoaderWorld) (rs : List ProcessedRequest) (fs : FailureSpec) :
    LoaderWorld × List LoadAction :=
  match runTransaction w.committed rs fs with
  | .ok txdb => (⟨txdb, false⟩, [.commit, .move])
  | .error _ => (⟨w.committed, w.filePending⟩, [.rollback])

theorem runChunks_ok (chunks : List (List ProcessedRequest)) :
    ∀ (db : DB) (failAt : Option Nat) (i : Nat) (d : DB),
      runChunks db chunks failAt i = .ok d →
      d = chunks.foldl batchInsertRequestsAndParameters db := by
  induction chunks with
  | nil => intro db failAt i d h; simpa [runChunks] using h.symm
  | cons c rest ih =>
    intro db failAt i d h
    simp only [runChunks] at h
    by_cases hf : failAt = some i
    · rw [if_pos hf] at h; cases h
    · rw [if_neg hf] at h
      simpa using ih _ failAt (i + 1) d h

/-- C2: the commit protocol of `process_file`.  When the try body
succeeds the full insert result is committed and only then is the file
moved (effect order `[commit, move]`); when the body raises, the rollback
leaves the committed data exactly as before and the file stays pending;
the file is moved only in the trace that contains the commit before it,
and the committed state is all-or-nothing: either untouched or the
complete result of the file, never a partial prefix of chunks. -/
theorem process_file_commit_protocol (w : LoaderWorld)
    (rs : List ProcessedRequest) (fs : FailureSpec)
    (hpend : w.filePending = true) :
    (∀ d, runTransaction w.committed rs fs = .ok d →
      d = loadRequests w.committed rs ∧
      (processFile w rs fs).1 = ⟨loadRequests w.committed rs, false⟩ ∧
      (processFile w rs fs).2 = [.commit, .move]) ∧
    (∀ e, runTransaction w.committed rs fs = .error e →
      (processFile w rs fs).1 = ⟨w.committed, true⟩ ∧
      (processFile w rs fs).2 = [.rollback]) ∧
    ((processFile w rs fs).1.filePending = false →
      (processFile w rs fs).1.committed = loadRequests w.committed rs) ∧
    ((processFile w rs fs).1.committed = w.committed ∨
      (processFile w rs fs).1.committed = loadRequests w.committed rs) ∧
    (LoadAction.move ∈ (processFile w rs fs).2 →
      (processFile w rs fs).2 = [.commit, .move]) := by
  have hok : ∀ d, runTransaction w.committed rs fs = .ok d →
      d = loadRequests w.committed rs := by
    intro d h
    unfold runTransaction at h
    by_cases hp : fs.parseFails
    · rw [if_pos hp] at h; cases h
    · rw [if_neg hp] at h
      by_cases hr : fs.resolveFails
      · rw [if_pos hr] at h; cases h
      · rw [if_neg hr] at h
        exact runChunks_ok _ _ _ _ _ h
  rcases htx : runTransaction w.committed rs fs with e | d
  · refine ⟨?_, ?_, ?_, ?_, ?_⟩
    · intro d h; cases h
    · intro e' h
      constructor <;> simp [processFile, htx, hpend]
    · intro h
      exfalso
      simp [processFile, htx, hpend] at h
    · left; simp [processFile, htx]
    · intro h
      simp [processFile, htx] at h
  · have hd : d = loadRequests w.committed rs := hok d htx
    refine ⟨?_, ?_, ?_, ?_, ?_⟩
    · intro d' h
      cases h
      exact ⟨hd, by simp [processFile, htx, hd], by simp [processFile, htx]⟩
    · intro e h; cases h
    · intro _; simp [processFile, htx, hd]
    · right; simp [processFile, htx, hd]
    · intro _; simp [processFile, htx]

/-- C2 witness: the all-or-nothing conclusion of the protocol theorem at
a concrete pending one-record file with an insert failure injected at
chunk 0. -/
theorem process_file_commit_protocol_witness :
    (processFile ⟨⟨[], [], 1⟩, true⟩ [⟨0, 1, 7, 100, none, []⟩]
        ⟨false, false, some 0⟩).1.committed = (⟨[], [], 1⟩ : DB) ∨
    (processFile ⟨⟨[], [], 1⟩, true⟩ [⟨0, 1, 7, 100, none, []⟩]
        ⟨false, false, some 0⟩).1.committed =
      loadRequests ⟨[], [], 1⟩ [⟨0, 1, 7, 100, none, []⟩] :=
  (process_file_commit_protocol ⟨⟨[], [], 1⟩, true⟩ [⟨0, 1, 7, 100, none, []⟩]
    ⟨false, false, some 0⟩ rfl).2.2.2.1

/-! ## `_save_logs` and the staging write discipline

`_save_logs` computes `<root>/<YYYY>/<MM>/<DD>/<resource>/<resource>_intermediate_<count>.json`,
creates the parent directories, then does `open(full_path, 'w')` and
`json.dump` into that handle.  The filesystem operations it issues are
modelled as a trace; paths are segment lists. -/

/-- One filesystem operation issued by the extractor. -/
inductive FsOp
  | mkdirs (path : List String)
  | openTrunc (path : List String)
  | writeAll (path : List String) (contents : String)
  | renameTo (src dst : List String)
deriving DecidableEq

/-- The pending-area path `_save_logs` writes to (the
`is_intermediate=True` call used by `fetch_logs`). -/
def saveLogsPath (outputDir : List String) (resource year month day : String)
    (count : Nat) : List String :=
  outputDir ++ [year, month, day, resource,
    resource ++ "_intermediate_" ++ toString count ++ ".json"]

/-- The operations `_save_logs` performs, in order:
`full_path.parent.mkdir(parents=True, exist_ok=True)`, then
`open(full_path, 'w')`, then the dump into that handle.  There is no
temporary file and no rename. -/
def saveLogsTrace (outputDir : List String) (resource year month day : String)
    (count : Nat) (contents : String) : List FsOp :=
  [.mkdirs (outputDir ++ [year, month, day, resource]),
   .openTrunc (saveLogsPath outputDir resource year month day count),
   .writeAll (saveLogsPath outputDir resource year month day count) contents]

/-- Modelled from the claim wording, for comparison with the source
trace: a write-then-rename discipline never opens the final pending path
for writing and installs it by renaming something onto it. -/
def isWriteThenRename (tr : List FsOp) (final : List String) : Bool :=
  (tr.all (fun op => match op with
    | .openTrunc p => !(p == final)
    | _ => true)) &&
  (tr.any (fun op => match op with
    | .renameTo _ dst => dst == final
    | _ => false))

/-- C7 counterexample: on a concrete staged batch write, the operation
trace of `_save_logs` is not a write-then-rename: it opens the final
pending path directly. -/
theorem save_logs_not_write_then_rename :
    isWriteThenRename
      (saveLogsTrace ["staging"] "gwas" "2024" "01" "02" 50000 "[]")
      (saveLogsPath ["staging"] "gwas" "2024" "01" "02" 50000) = false := by
  decide

/-- C7 amended: every staged batch write opens the final pending path in
truncate-write mode and issues no rename at all, so the batch file is
written in place (a partly written file is observable at its pending
path until the dump finishes). -/
theorem save_logs_writes_final_path_in_place (outputDir : List String)
    (resource year month day : String) (count : Nat) (contents : String) :
    FsOp.openTrunc (saveLogsPath outputDir resource year month day count) ∈
      saveLogsTrace outputDir resource year month day count contents ∧
    ∀ op ∈ saveLogsTrace outputDir resource year month day count contents,
      ∀ src dst, op ≠ FsOp.renameTo src dst := by
  constructor
  · simp [saveLogsTrace]
  · intro op hop src dst
    simp only [saveLogsTrace, List.mem_cons, List.mem_singleton] at hop
    rcases hop with rfl | rfl | rfl | h
    · simp
    · simp
    · simp
    · simp at h

/-- C7 amended-claim witness: the in-place-write fact at one concrete
staged batch file. -/
theorem save_logs_writes_final_path_in_place_witness :
    FsOp.openTrunc (saveLogsPath ["staging"] "gwas" "2024" "01" "02" 50000) ∈
      saveLogsTrace ["staging"] "gwas" "2024" "01" "02" 50000 "[]" :=
  (save_logs_writes_final_path_in_place ["staging"] "gwas" "2024" "01" "02"
    50000 "[]").1

/-! ## Cursor pagination in `fetch_logs`

`_build_query` asks the log store for pages of size 5000 sorted by
`(@timestamp desc, _id desc)`; `fetch_logs` loops: run the query, stop on
an empty page, otherwise accumulate the hits and set `search_after` to
the last hit of the page.  The store is modelled as the matching events
of one endpoint pattern in the window, as the store serves them: a list
sorted by the descending sort-key pair, where a `search_after` cursor
returns the events strictly after the cursor in that order. -/

/-- A hit: its sort-key pair `(@timestamp, _id)` (document ids are
modelled as naturals; only their order matters to the cursor). -/
structure Hit where
  timestamp : Nat
  docId : Nat
deriving DecidableEq

/-- The sort values the code reads from `hit['sort']`. -/
def Hit.sortKey (h : Hit) : Nat × Nat := (h.timestamp, h.docId)

/-- `a` sorts strictly after `b` in `(timestamp desc, id desc)` order. -/
def keyLt (a b : Nat × Nat) : Bool :=
  a.1 < b.1 || (a.1 == b.1 && a.2 < b.2)

/-- The fixed page size of `_build_query`. -/
def pageSize : Nat := 5000

/-- One query: without `search_after`, the first page; with it, the first
page of the events strictly after the cursor. -/
def pageQuery (store : List Hit) (cursor : Option (Nat × Nat)) : List Hit :=
  match cursor with
  | none => store.take pageSize
  | some c => (store.filter (fun h => keyLt h.sortKey c)).take pageSize

/-- The suffix of the store a cursor points into. -/
def afterCursor (store : List Hit) : Option (Nat × Nat) → List Hit
  | none => store
  | some c => store.filter (fun h => keyLt h.sortKey c)

/-- The `while True` loop of `fetch_logs` for one endpoint pattern: query,
stop on an empty page, else extend the accumulated hits and advance the
cursor to the last hit of the page. -/
def fetchPages (store : List Hit) : Nat → Option (Nat × Nat) → List Hit
  | 0, _ => []
  | fuel + 1, cursor =>
    match (pageQuery store cursor).getLast? with
    | none => []
    | some last => pageQuery store cursor ++ fetchPages store fuel (some last.sortKey)

/-- Extraction for one endpoint pattern, started without a cursor (the
fuel bounds the loop; one page consumes at least one event, so
`length + 1` rounds always suffice). -/
def fetchEndpointLogs (store : List Hit) : List Hit :=
  fetchPages store (store.length + 1) none

/-! ## Pagination lemmas -/

theorem filter_lt_getLast_take {α κ : Type} (key : α → κ) (lt : κ → κ → Bool)
    (asym : ∀ a b, lt a b = true → lt b a = false) :
    ∀ (l : List α), l.Pairwise (fun a b => lt (key b) (key a) = true) →
      ∀ (n : Nat) (k : κ),
        ((l.take n).getLast?.map key) = some k →
        l.filter (fun e => lt (key e) k) = l.drop n := by
  have hirr : ∀ x, lt x x = false := by
    intro x
    rcases h : lt x x with _ | _
    · rfl
    · have h2 := asym x x h
      rw [h] at h2
      cases h2
  intro l
  induction l with
  | nil => intro _ n k hk; simp at hk
  | cons a t ih =>
    intro hs n k hk
    cases n with
    | zero => simp at hk
    | succ m =>
      rw [List.take_succ_cons] at hk
      by_cases hmt : t.take m = []
      · rw [hmt] at hk
        simp only [List.getLast?_singleton, Option.map_some] at hk
        have hka : k = key a := by injection hk with h; exact h.symm
        subst hka
        have hfa : lt (key a) (key a) = false := hirr _
        rw [List.filter_cons, hfa]
        simp only [Bool.false_eq_true, if_false]
        have hft : t.filter (fun e => lt (key e) (key a)) = t := by
          rw [List.filter_eq_self]
          intro b hb
          exact List.rel_of_pairwise_cons hs hb
        rw [hft, List.drop_succ_cons]
        rcases List.take_eq_nil_iff.mp hmt with rfl | rfl
        · rw [List.drop_zero]
        · rw [List.drop_nil]
      · have hlast : (a :: t.take m).getLast? = (t.take m).getLast? := by
          have : a :: t.take m = [a] ++ t.take m := rfl
          rw [this, List.getLast?_append]
          rcases hg : (t.take m).getLast? with _ | x
          · exact absurd (List.getLast?_eq_none_iff.mp hg) hmt
          · rfl
        rw [hlast] at hk
        have hft := ih (List.Pairwise.of_cons hs) m k hk
        have hfa : lt (key a) k = false := by
          rcases hg : (t.take m).getLast? with _ | x
          · rw [hg] at hk; cases hk
          · rw [hg] at hk
            have hmapped : Option.map key (some x) = some (key x) := rfl
            rw [hmapped] at hk
            have hkx : k = key x := by injection hk with h; exact h.symm
            subst hkx
            have hxt : x ∈ t := List.mem_of_mem_take (List.mem_of_getLast?_eq_some hg)
            exact asym _ _ (List.rel_of_pairwise_cons hs hxt)
        rw [List.filter_cons, hfa]
        simp only [Bool.false_eq_true, if_false]
        rw [hft, List.drop_succ_cons]

theorem drop_min_length {α : Type} (s : List α) (n : Nat) :
    s.drop (min n s.length) = s.drop n := by
  rcases Nat.le_total n s.length with h | h
  · rw [Nat.min_eq_left h]
  · rw [Nat.min_eq_right h, List.drop_of_length_le h, List.drop_of_length_le (le_refl _)]

theorem take_min_length {α : Type} (s : List α) (n : Nat) :
    s.take (min n s.length) = s.take n := by
  rcases Nat.le_total n s.length with h | h
  · rw [Nat.min_eq_left h]
  · rw [Nat.min_eq_right h, List.take_of_length_le h, List.take_of_length_le (le_refl _)]

theorem fetchPages_succ (store : List Hit) (fuel : Nat) (cursor : Option (Nat × Nat)) :
    fetchPages store (fuel + 1) cursor =
      match (pageQuery store cursor).getLast? with
      | none => []
      | some last => pageQuery store cursor ++ fetchPages store fuel (some last.sortKey) :=
  rfl

theorem fetchPages_drop (store : List Hit)
    (hs : store.Pairwise (fun a b => keyLt b.sortKey a.sortKey = true)) :
    ∀ (fuel m : Nat) (cursor : Option (Nat × Nat)),
      store.length - m < fuel →
      afterCursor store cursor = store.drop m →
      fetchPages store fuel cursor = store.drop m := by
  intro fuel
  induction fuel with
  | zero => intro m cursor hfuel _; omega
  | succ fuel ih =>
    intro m cursor hfuel heq
    have hpq : pageQuery store cursor = (store.drop m).take pageSize := by
      cases cursor with
      | none =>
        simp only [afterCursor] at heq
        show store.take pageSize = (store.drop m).take pageSize
        rw [← heq]
      | some c =>
        simp only [afterCursor] at heq
        show (store.filter (fun h => keyLt h.sortKey c)).take pageSize =
          (store.drop m).take pageSize
        rw [heq]
    rcases hdrop : store.drop m with _ | ⟨a, rest⟩
    · rw [fetchPages_succ, hpq, hdrop, List.take_nil]
      rfl
    · have hne : (store.drop m).take pageSize ≠ [] := by
        rw [hdrop]
        intro hcontra
        rcases List.take_eq_nil_iff.mp hcontra with h | h
        · simp [pageSize] at h
        · cases h
      rcases hlastq : ((store.drop m).take pageSize).getLast? with _ | last
      · exact absurd (List.getLast?_eq_none_iff.mp hlastq) hne
      · have hlen1 : 1 ≤ ((store.drop m).take pageSize).length := by
          rcases hl : ((store.drop m).take pageSize).length with _ | _
          · exact absurd (List.length_eq_zero.mp hl) hne
          · omega
        have htake : (store.drop m).take ((store.drop m).take pageSize).length =
            (store.drop m).take pageSize := by
          rw [List.length_take, take_min_length]
        have htakeadd : store.take (m + ((store.drop m).take pageSize).length) =
            store.take m ++ (store.drop m).take pageSize := by
          rw [List.take_add, htake]
        have hklast : ((store.take
            (m + ((store.drop m).take pageSize).length)).getLast?).map Hit.sortKey =
            some last.sortKey := by
          rw [htakeadd, List.getLast?_append, hlastq]
          rfl
        have hfilter := filter_lt_getLast_take Hit.sortKey keyLt
          (by
            intro a b hab
            simp only [keyLt, Bool.or_eq_true, Bool.and_eq_true, beq_iff_eq,
              decide_eq_true_eq] at hab
            simp only [keyLt, Bool.or_eq_false_iff, Bool.and_eq_false_iff]
            constructor
            · simp only [decide_eq_false_iff_not]
              omega
            · rcases hab with h | ⟨h1, h2⟩
              · left; simp only [beq_eq_false_iff_ne, ne_eq]; omega
              · right; simp only [decide_eq_false_iff_not]; omega)
          store hs (m + ((store.drop m).take pageSize).length) last.sortKey hklast
        have hafter : afterCursor store (some last.sortKey) =
            store.drop (m + ((store.drop m).take pageSize).length) := by
          simp only [afterCursor]
          exact hfilter
        have hfuel2 : store.length - (m + ((store.drop m).take pageSize).length) < fuel := by
          have hmlt : m < store.length := by
            by_contra hcontra
            rw [List.drop_of_length_le (by omega)] at hdrop
            cases hdrop
          omega
        have hrec := ih (m + ((store.drop m).take pageSize).length)
          (some last.sortKey) hfuel2 hafter
        rw [fetchPages_succ, hpq, hlastq]
        show (store.drop m).take pageSize ++ fetchPages store fuel (some last.sortKey) =
          a :: rest
        rw [hrec, ← List.drop_drop, List.length_take, drop_min_length,
          List.take_append_drop]
        exact hdrop

/-- C6: for a store of events sorted by the descending
`(timestamp, id)` pair — more than one page of them — the cursor loop of
`fetch_logs` (pages of 5000, `search_after` advanced to the last hit of
each page, stop on an empty page) retrieves exactly the whole store: all
N events, no gaps, no duplicates. -/
theorem cursor_pagination_complete (store : List Hit)
    (hs : store.Pairwise (fun a b => keyLt b.sortKey a.sortKey = true))
    (hN : 5000 < store.length) :
    fetchEndpointLogs store = store ∧
    (fetchEndpointLogs store).length = store.length ∧
    (fetchEndpointLogs store).Nodup := by
  have h0 : afterCursor store none = store.drop 0 := by simp [afterCursor]
  have h := fetchPages_drop store hs (store.length + 1) 0 none (by omega) h0
  have hfetch : fetchEndpointLogs store = store := by
    simpa [fetchEndpointLogs] using h
  refine ⟨hfetch, by rw [hfetch], ?_⟩
  rw [hfetch]
  have hne : ∀ {a b : Hit}, keyLt b.sortKey a.sortKey = true → a ≠ b := by
    intro a b hab hcontra
    subst hcontra
    simp [keyLt] at hab
  exact List.Pairwise.imp hne hs

/-- A synthetic store of 5001 events with distinct descending sort keys. -/
def descStore : List Hit := (List.range 5001).reverse.map (fun n => ⟨n, n⟩)

/-- C6 witness: completeness on the concrete 5001-event store (N = 5001
exceeds the page size 5000, so the loop takes more than one page). -/
theorem cursor_pagination_complete_witness :
    fetchEndpointLogs descStore = descStore ∧
    (fetchEndpointLogs descStore).length = descStore.length ∧
    (fetchEndpointLogs descStore).Nodup := by
  refine cursor_pagination_complete descStore ?_ ?_
  · unfold descStore
    have h1 := List.pairwise_lt_range 5001
    have h2 : (List.range 5001).reverse.Pairwise (fun a b => b < a) :=
      List.pairwise_reverse.mpr h1
    refine List.pairwise_map.mpr (List.Pairwise.imp ?_ h2)
    intro a b hba
    simp [keyLt, Hit.sortKey, hba]
  · simp [descStore]

/-! ## The analytics replicator: `clickhouse_analytics.py`

`_sync_with_date_filter` selects the denormalized join of `requests`
with `resources` (inner), `endpoints` (inner) and `countries` (left,
`COALESCE(c.name, 'Unknown')`), plus a JSON object aggregating that
request's parameter rows, for `request_timestamp > cutoff`, ordered by
timestamp, `LIMIT 500000`, and appends the rows to the ClickHouse table.
`_sync_all_historical_data` pages over the whole timestamp range with a
`>= cursor` filter, `LIMIT chunk_size`, advancing the cursor to the last
row's timestamp plus one microsecond after each full chunk. -/

/-- A row of the `resources` dimension table. -/
structure ResourceRow where
  id : Nat
  name : String
deriving DecidableEq

/-- The relational schema as the replicator reads it. -/
structure Warehouse where
  requests : List ReqRow
  parameters : List ParamRow
  resources : List ResourceRow
  endpoints : List EndpointRow
  countries : List CountryRow
deriving DecidableEq

/-- A denormalized row as inserted into ClickHouse. -/
structure DenormRow where
  requestDate : Nat
  requestTimestamp : Nat
  resource : String
  endpoint : String
  country : String
  parameters : List (String × String)
deriving DecidableEq

/-- The denormalizing join for one request row: inner joins on
`resources` and `endpoints` (a row with no match is dropped by the join),
left join on `countries` with `COALESCE(_, 'Unknown')`, and the
aggregated parameter map of the request. -/
def denormalize (w : Warehouse) (r : ReqRow) : Option DenormRow :=
  match w.resources.find? (fun res => res.id == r.resourceId),
        w.endpoints.find? (fun e => e.id == r.endpointId) with
  | some res, some e =>
    some ⟨r.requestDate, r.requestTimestamp, res.name, e.path,
      (match r.countryId with
       | none => "Unknown"
       | some cid =>
         match w.countries.find? (fun c => c.id == cid) with
         | none => "Unknown"
         | some c => c.name),
      (w.parameters.filter (fun p =>
        p.requestId == r.id && p.requestDate == r.requestDate)).map
        (fun p => (p.paramName, p.paramValue))⟩
  | _, _ => none

/-- `ORDER BY r.request_timestamp` as a boolean comparator. -/
def tsLeB (a b : ReqRow) : Bool := decide (a.requestTimestamp ≤ b.requestTimestamp)

/-- `_sync_with_date_filter`: the rows appended to the analytics store
for one incremental run — matching rows (`request_timestamp > cutoff`),
timestamp order, `LIMIT 500000`, denormalized. -/
def syncWithDateFilter (w : Warehouse) (cutoff : Nat) : List DenormRow :=
  (((w.requests.filter (fun r => decide (cutoff < r.requestTimestamp))).mergeSort
      tsLeB).take 500000).filterMap (denormalize w)

theorem length_filterMap_of_isSome {α β : Type} (f : α → Option β) :
    ∀ (l : List α), (∀ a ∈ l, (f a).isSome = true) →
      (l.filterMap f).length = l.length := by
  intro l
  induction l with
  | nil => intro _; rfl
  | cons a t ih =>
    intro h
    have ha := h a (by simp)
    rcases hf : f a with _ | b
    · rw [hf] at ha; cases ha
    · rw [List.filterMap_cons, hf]
      simp only [List.length_cons]
      rw [ih (fun x hx => h x (by simp [hx]))]

/-- The 500001 distinct-timestamp requests of the C8 counterexample, all
resolvable against one resource and one endpoint. -/
def bigRequests : List ReqRow :=
  (List.range 500001).map (fun i => ⟨i + 1, 0, 1, 1, i + 1, none⟩)

/-- The C8 counterexample warehouse. -/
def bigWarehouse : Warehouse :=
  ⟨bigRequests, [], [⟨1, "RES"⟩], [⟨1, "/a", 1⟩], []⟩

/-- C8 counterexample: with 500001 rows newer than the cutoff, the
incremental sync appends only 500000 denormalized rows — the `LIMIT
500000` in `_sync_with_date_filter` caps the select, so not every
matching row is appended. -/
theorem bigWarehouse_requests : bigWarehouse.requests = bigRequests := by
  rw [bigWarehouse]

theorem sync_incremental_misses_rows_beyond_limit :
    (syncWithDateFilter bigWarehouse 0).length = 500000 ∧
    (bigWarehouse.requests.filter
      (fun r => decide ((0 : Nat) < r.requestTimestamp))).length = 500001 := by
  have hmemts : ∀ r ∈ bigRequests, 0 < r.requestTimestamp := by
    intro r hr
    simp only [bigRequests, List.mem_map, List.mem_range] at hr
    obtain ⟨i, _, rfl⟩ := hr
    show 0 < i + 1
    omega
  have hfilter : bigRequests.filter
      (fun r => decide ((0 : Nat) < r.requestTimestamp)) = bigRequests := by
    refine List.filter_eq_self.mpr ?_
    intro r hr
    exact decide_eq_true (hmemts r hr)
  have hlen : bigRequests.length = 500001 := by
    unfold bigRequests
    rw [List.length_map, List.length_range]
  constructor
  · unfold syncWithDateFilter
    rw [bigWarehouse_requests, hfilter]
    have hperm : (bigRequests.mergeSort tsLeB).Perm bigRequests :=
      List.mergeSort_perm bigRequests tsLeB
    have hslen : (bigRequests.mergeSort tsLeB).length = 500001 := by
      rw [hperm.length_eq, hlen]
    have hsome : ∀ r ∈ (bigRequests.mergeSort tsLeB).take 500000,
        (denormalize bigWarehouse r).isSome = true := by
      intro r hr
      have hr2 : r ∈ bigRequests := hperm.mem_iff.mp (List.mem_of_mem_take hr)
      simp only [bigRequests, List.mem_map, List.mem_range] at hr2
      obtain ⟨i, _, rfl⟩ := hr2
      rfl
    rw [length_filterMap_of_isSome _ _ hsome, List.length_take, hslen]
    omega
  · rw [bigWarehouse_requests, hfilter, hlen]

/-- C8 amended: the incremental sync selects the matching rows in
timestamp order capped at 500000 (the LIMIT); whenever at most 500000
rows match, the appended batch is exactly — as a multiset — the
denormalized join of every matching row, so each of them is appended
once. -/
theorem sync_incremental_appends_all_matching_upto_limit (w : Warehouse)
    (cutoff : Nat)
    (hcount : (w.requests.filter
      (fun r => decide (cutoff < r.requestTimestamp))).length ≤ 500000) :
    (syncWithDateFilter w cutoff).Perm
      ((w.requests.filter (fun r => decide (cutoff < r.requestTimestamp))).filterMap
        (denormalize w)) := by
  unfold syncWithDateFilter
  have hperm : ((w.requests.filter
      (fun r => decide (cutoff < r.requestTimestamp))).mergeSort tsLeB).Perm
      (w.requests.filter (fun r => decide (cutoff < r.requestTimestamp))) :=
    List.mergeSort_perm _ tsLeB
  rw [List.take_of_length_le (by rw [hperm.length_eq]; exact hcount)]
  exact hperm.filterMap (denormalize w)

/-- C8 amended-claim witness: a two-row warehouse, one row newer than the
cutoff. -/
theorem sync_incremental_appends_all_matching_upto_limit_witness :
    ((Warehouse.mk [⟨1, 0, 1, 1, 5, none⟩, ⟨2, 0, 1, 1, 15, none⟩] []
        [⟨1, "RES"⟩] [⟨1, "/a", 1⟩] []).requests.filter
      (fun r => decide ((10 : Nat) < r.requestTimestamp))).length ≤ 500000 ∧
    (syncWithDateFilter (Warehouse.mk [⟨1, 0, 1, 1, 5, none⟩, ⟨2, 0, 1, 1, 15, none⟩]
        [] [⟨1, "RES"⟩] [⟨1, "/a", 1⟩] []) 10).Perm
      (((Warehouse.mk [⟨1, 0, 1, 1, 5, none⟩, ⟨2, 0, 1, 1, 15, none⟩] []
          [⟨1, "RES"⟩] [⟨1, "/a", 1⟩] []).requests.filter
        (fun r => decide ((10 : Nat) < r.requestTimestamp))).filterMap
        (denormalize (Warehouse.mk [⟨1, 0, 1, 1, 5, none⟩, ⟨2, 0, 1, 1, 15, none⟩]
          [] [⟨1, "RES"⟩] [⟨1, "/a", 1⟩] []))) :=
  ⟨by decide,
    sync_incremental_appends_all_matching_upto_limit
      (Warehouse.mk [⟨1, 0, 1, 1, 5, none⟩, ⟨2, 0, 1, 1, 15, none⟩] []
        [⟨1, "RES"⟩] [⟨1, "/a", 1⟩] []) 10 (by decide)⟩

/-! ## Full-historical backfill: `_sync_all_historical_data` -/

/-- One chunk query:
`WHERE r.request_timestamp >= %s ORDER BY r.request_timestamp LIMIT %s`. -/
def selectChunk (w : Warehouse) (cur : Nat) (n : Nat) : List ReqRow :=
  ((w.requests.filter (fun r => decide (cur ≤ r.requestTimestamp))).mergeSort
    tsLeB).take n

/-- The `while current_timestamp <= max_timestamp` loop: query a chunk;
an empty result breaks; otherwise the chunk is synced, and when it is
full the cursor advances to the last row's timestamp plus one
microsecond, else the loop breaks after the sync.  The returned list
holds each executed query's result in order. -/
def syncChunksAux (w : Warehouse) (maxTs : Nat) (chunkSize : Nat) :
    Nat → Nat → List (List ReqRow)
  | 0, _ => []
  | fuel + 1, cur =>
    if cur ≤ maxTs then
      match (selectChunk w cur chunkSize).getLast? with
      | none => []
      | some last =>
        if (selectChunk w cur chunkSize).length < chunkSize then
          [selectChunk w cur chunkSize]
        else
          selectChunk w cur chunkSize ::
            syncChunksAux w maxTs chunkSize fuel (last.requestTimestamp + 1)
    else []

/-- `_sync_all_historical_data`: read `MIN(request_timestamp)` and
`MAX(request_timestamp)`, then run the chunk loop from the minimum (an
empty table gives no queries; a full chunk consumes `chunkSize ≥ 1` rows,
so `length + 1` rounds bound the loop). -/
def syncAllHistorical (w : Warehouse) (chunkSize : Nat) : List (List ReqRow) :=
  match (w.requests.map (fun r => r.requestTimestamp)).min?,
        (w.requests.map (fun r => r.requestTimestamp)).max? with
  | some mn, some mx => syncChunksAux w mx chunkSize (w.requests.length + 1) mn
  | _, _ => []

/-! ## Sorted-permutation lemmas for the backfill -/

theorem eq_of_perm_of_pairwise {α : Type} {R : α → α → Prop}
    (asym : ∀ a b, R a b → ¬R b a) :
    ∀ {l₁ l₂ : List α}, l₁.Perm l₂ → l₁.Pairwise R → l₂.Pairwise R → l₁ = l₂ := by
  intro l₁
  induction l₁ with
  | nil =>
    intro l₂ hp _ _
    exact hp.nil_eq
  | cons a t ih =>
    intro l₂ hp h1 h2
    cases l₂ with
    | nil => cases hp.symm.nil_eq
    | cons b t₂ =>
      by_cases hab : a = b
      · subst hab
        rw [ih hp.cons_inv (List.Pairwise.of_cons h1) (List.Pairwise.of_cons h2)]
      · exfalso
        have ha2 : a ∈ b :: t₂ := hp.mem_iff.mp (by simp)
        have hat2 : a ∈ t₂ := by
          rcases List.mem_cons.mp ha2 with h | h
          · exact absurd h hab
          · exact h
        have hba : R b a := List.rel_of_pairwise_cons h2 hat2
        have hb1 : b ∈ a :: t := hp.mem_iff.mpr (by simp)
        have hbt : b ∈ t := by
          rcases List.mem_cons.mp hb1 with h | h
          · exact absurd h.symm hab
          · exact h
        exact asym b a hba (List.rel_of_pairwise_cons h1 hbt)

theorem mergeSort_ts_pairwise (l : List ReqRow) :
    (l.mergeSort tsLeB).Pairwise (fun a b => tsLeB a b = true) := by
  refine List.sorted_mergeSort ?_ ?_ l
  · intro a b c hab hbc
    simp only [tsLeB, decide_eq_true_eq] at *
    omega
  · intro a b
    simp only [tsLeB, Bool.or_eq_true, decide_eq_true_eq]
    omega

theorem pairwise_strict_of_le_nodup (l : List ReqRow)
    (hle : l.Pairwise (fun a b => tsLeB a b = true))
    (hnd : (l.map (fun r => r.requestTimestamp)).Nodup) :
    l.Pairwise (fun a b => a.requestTimestamp < b.requestTimestamp) := by
  have hne : l.Pairwise (fun a b => a.requestTimestamp ≠ b.requestTimestamp) :=
    List.pairwise_map.mp hnd
  refine (hle.and hne).imp ?_
  intro a b hab
  obtain ⟨h1, h2⟩ := hab
  simp only [tsLeB, decide_eq_true_eq] at h1
  omega

/-- On a timestamp-distinct table, each chunk query re-sorts the filtered
table into the corresponding filtered slice of the one globally sorted
list. -/
theorem sorted_filter_eq (S l : List ReqRow) (p : ReqRow → Bool)
    (hperm : S.Perm l)
    (hS : S.Pairwise (fun a b => a.requestTimestamp < b.requestTimestamp)) :
    (l.filter p).mergeSort tsLeB = S.filter p := by
  have hasym : ∀ a b : ReqRow,
      a.requestTimestamp < b.requestTimestamp →
      ¬b.requestTimestamp < a.requestTimestamp := by
    intro a b h1 h2
    omega
  have hperm2 : ((l.filter p).mergeSort tsLeB).Perm (S.filter p) :=
    (List.mergeSort_perm _ tsLeB).trans (hperm.symm.filter p)
  have hfS : (S.filter p).Pairwise
      (fun a b => a.requestTimestamp < b.requestTimestamp) :=
    List.Pairwise.sublist (List.filter_sublist S) hS
  have hnds : ((S.filter p).map (fun r => r.requestTimestamp)).Nodup :=
    List.pairwise_map.mpr (hfS.imp (fun hab => Nat.ne_of_lt hab))
  have hndm : (((l.filter p).mergeSort tsLeB).map
      (fun r => r.requestTimestamp)).Nodup :=
    ((hperm2.map (fun r => r.requestTimestamp)).nodup_iff).mpr hnds
  have hms : ((l.filter p).mergeSort tsLeB).Pairwise
      (fun a b => a.requestTimestamp < b.requestTimestamp) :=
    pairwise_strict_of_le_nodup _ (mergeSort_ts_pairwise _) hndm
  exact eq_of_perm_of_pairwise hasym hperm2 hms hfS

theorem syncChunksAux_succ (w : Warehouse) (mx c fuel cur : Nat) :
    syncChunksAux w mx c (fuel + 1) cur =
      if cur ≤ mx then
        match (selectChunk w cur c).getLast? with
        | none => []
        | some last =>
          if (selectChunk w cur c).length < c then [selectChunk w cur c]
          else
            selectChunk w cur c ::
              syncChunksAux w mx c fuel (last.requestTimestamp + 1)
      else [] :=
  rfl

theorem nat_min?_spec (l : List Nat) (a : Nat) (h : l.min? = some a) :
    a ∈ l ∧ ∀ b ∈ l, a ≤ b := by
  rw [List.min?_eq_some_iff] at h
  · exact h
  · intro x; omega
  · intro x y
    rcases Nat.le_total x y with h' | h'
    · left; omega
    · right; omega
  · intro x y z
    constructor
    · intro hx; constructor <;> omega
    · intro hx; omega

theorem nat_max?_spec (l : List Nat) (a : Nat) (h : l.max? = some a) :
    a ∈ l ∧ ∀ b ∈ l, b ≤ a := by
  rw [List.max?_eq_some_iff] at h
  · exact h
  · intro x; omega
  · intro x y
    rcases Nat.le_total x y with h' | h'
    · right; omega
    · left; omega
  · intro x y z
    constructor
    · intro hx; constructor <;> omega
    · intro hx; omega

theorem chunksOf_flatten {α : Type} (n : Nat) (hn : n ≠ 0) :
    ∀ (l : List α), (chunksOf n l).flatten = l := by
  intro l
  induction l using chunksOf.induct n with
  | case1 l h =>
    rw [chunksOf, dif_pos h]
    simp only [Bool.or_eq_true, List.isEmpty_iff, beq_iff_eq] at h
    rcases h with rfl | rfl
    · rfl
    · exact absurd rfl hn
  | case2 l h ih =>
    rw [chunksOf, dif_neg h, List.flatten_cons, ih, List.take_append_drop]

theorem chunksOf_two_of_length_five {α : Type} (l : List α) (h : l.length = 5) :
    (chunksOf 2 l).map List.length = [2, 2, 1] ∧ (chunksOf 2 l).length = 3 := by
  have h1 : l ≠ [] := by intro hc; rw [hc] at h; simp at h
  have hd1 : (l.drop 2).length = 3 := by rw [List.length_drop, h]
  have hd2 : ((l.drop 2).drop 2).length = 1 := by rw [List.length_drop, hd1]
  have hd3 : ((l.drop 2).drop 2).drop 2 = [] :=
    List.drop_eq_nil_of_le (by rw [hd2]; omega)
  have h2 : l.drop 2 ≠ [] := by intro hc; rw [hc] at hd1; simp at hd1
  have h3 : (l.drop 2).drop 2 ≠ [] := by intro hc; rw [hc] at hd2; simp at hd2
  rw [chunksOf, dif_neg (by
    simp only [Bool.or_eq_true, List.isEmpty_iff, beq_iff_eq, not_or]
    exact ⟨h1, by omega⟩)]
  rw [chunksOf, dif_neg (by
    simp only [Bool.or_eq_true, List.isEmpty_iff, beq_iff_eq, not_or]
    exact ⟨h2, by omega⟩)]
  rw [chunksOf, dif_neg (by
    simp only [Bool.or_eq_true, List.isEmpty_iff, beq_iff_eq, not_or]
    exact ⟨h3, by omega⟩)]
  rw [hd3, chunksOf, dif_pos (by simp)]
  constructor
  · simp only [List.map_cons, List.map_nil, List.length_take, h, hd1, hd2]
    norm_num
  · rfl

/-- The chunk loop on a timestamp-distinct table walks the globally
sorted row list `S` chunk by chunk: whenever the remaining work is the
suffix `S.drop m`, the queries it still issues return exactly the chunks
of that suffix. -/
theorem syncChunksAux_eq (w : Warehouse) (S : List ReqRow) (mx c : Nat)
    (hc : 1 ≤ c)
    (hSperm : S.Perm w.requests)
    (hSsorted : S.Pairwise (fun a b => a.requestTimestamp < b.requestTimestamp))
    (hmax : ∀ r ∈ w.requests, r.requestTimestamp ≤ mx) :
    ∀ (fuel m cur : Nat),
      S.length - m < fuel → m ≤ S.length →
      S.filter (fun r => decide (cur ≤ r.requestTimestamp)) = S.drop m →
      syncChunksAux w mx c fuel cur = chunksOf c (S.drop m) := by
  intro fuel
  induction fuel with
  | zero => intro m cur h1 _ _; omega
  | succ fuel ih =>
    intro m cur hfuel hm hinv
    have hsel : selectChunk w cur c = (S.drop m).take c := by
      unfold selectChunk
      rw [sorted_filter_eq S w.requests _ hSperm hSsorted, hinv]
    by_cases hcur : cur ≤ mx
    · rcases hdrop : S.drop m with _ | ⟨a, rest⟩
      · rw [syncChunksAux_succ, if_pos hcur, hsel, hdrop, List.take_nil]
        rw [chunksOf, dif_pos (by simp)]
        rfl
      · have hne : (S.drop m).take c ≠ [] := by
          rw [hdrop]
          intro hcontra
          rcases List.take_eq_nil_iff.mp hcontra with h | h
          · omega
          · cases h
        rcases hlast : ((S.drop m).take c).getLast? with _ | last
        · exact absurd (List.getLast?_eq_none_iff.mp hlast) hne
        · rw [← hdrop]
          by_cases hlen : ((S.drop m).take c).length < c
          · have hlen2 : (S.drop m).length < c := by
              rw [List.length_take] at hlen; omega
            have htake : (S.drop m).take c = S.drop m :=
              List.take_of_length_le (by omega)
            have hdropc : (S.drop m).drop c = [] :=
              List.drop_eq_nil_of_le (by omega)
            rw [syncChunksAux_succ, if_pos hcur, hsel, hlast]
            show (if ((S.drop m).take c).length < c then [(S.drop m).take c]
                else (S.drop m).take c ::
                  syncChunksAux w mx c fuel (last.requestTimestamp + 1)) =
              chunksOf c (S.drop m)
            rw [if_pos hlen]
            rw [chunksOf, dif_neg (by
              simp only [Bool.or_eq_true, List.isEmpty_iff, beq_iff_eq, not_or]
              exact ⟨by rw [hdrop]; simp, by omega⟩)]
            rw [hdropc, chunksOf, dif_pos (by simp), htake]
          · have hdlen : c ≤ (S.drop m).length := by
              rw [List.length_take] at hlen; omega
            have hdlen2 : c ≤ S.length - m := by
              rw [List.length_drop] at hdlen
              exact hdlen
            have hpos : 0 < S.length - m := by
              have hlp : 0 < (S.drop m).length := by rw [hdrop]; simp
              rw [List.length_drop] at hlp
              exact hlp
            have hklast : ((S.take (m + c)).getLast?.map
                (fun r => r.requestTimestamp)) = some last.requestTimestamp := by
              rw [List.take_add, List.getLast?_append, hlast]
              rfl
            have hfilter := filter_lt_getLast_take
              (fun r : ReqRow => r.requestTimestamp)
              (fun x y => decide (y < x))
              (by
                intro a b hab
                simp only [decide_eq_true_eq] at hab
                simp only [decide_eq_false_iff_not]
                omega)
              S
              (by
                refine hSsorted.imp ?_
                intro a b hab
                simpa using hab)
              (m + c) last.requestTimestamp hklast
            have hinv2 : S.filter
                (fun r => decide (last.requestTimestamp + 1 ≤ r.requestTimestamp)) =
                S.drop (m + c) := by
              rw [← hfilter]
              apply List.filter_congr
              intro r _
              show decide (last.requestTimestamp + 1 ≤ r.requestTimestamp) =
                decide (last.requestTimestamp < r.requestTimestamp)
              rw [decide_eq_decide]
              omega
            have hrec := ih (m + c) (last.requestTimestamp + 1)
              (by omega) (by omega) hinv2
            rw [syncChunksAux_succ, if_pos hcur, hsel, hlast]
            show (if ((S.drop m).take c).length < c then [(S.drop m).take c]
                else (S.drop m).take c ::
                  syncChunksAux w mx c fuel (last.requestTimestamp + 1)) =
              chunksOf c (S.drop m)
            rw [if_neg hlen, hrec]
            rw [show chunksOf c (S.drop m) =
                (S.drop m).take c :: chunksOf c ((S.drop m).drop c) from by
              rw [chunksOf, dif_neg (by
                simp only [Bool.or_eq_true, List.isEmpty_iff, beq_iff_eq, not_or]
                exact ⟨by rw [hdrop]; simp, by omega⟩)]]
            rw [List.drop_drop]
    · rw [syncChunksAux_succ, if_neg hcur]
      rcases hdrop : S.drop m with _ | ⟨r, rest⟩
      · rw [chunksOf, dif_pos (by simp)]
      · exfalso
        have hrmem : r ∈ S.drop m := by rw [hdrop]; simp
        have hrfilter : r ∈ S.filter
            (fun r => decide (cur ≤ r.requestTimestamp)) := by
          rw [hinv]; exact hrmem
        have hcurr : cur ≤ r.requestTimestamp := by
          simpa using List.of_mem_filter hrfilter
        have hrw : r ∈ w.requests :=
          hSperm.mem_iff.mp (List.mem_of_mem_drop hrmem)
        have := hmax r hrw
        omega

/-- C9: full-historical backfill over a table of 5 rows with distinct
timestamps and chunk size 2 issues exactly 3 chunk queries, returning
2, 2 and 1 rows; the synced rows are exactly the 5 table rows, each one
exactly once (their timestamps — the input to the deterministic per-event
merge key — stay pairwise distinct, so the downstream merge pass keeps
all of them); the cursor advance to the last timestamp plus one
microsecond never re-fetches a boundary row. -/
theorem backfill_five_rows_chunk_two (w : Warehouse)
    (hlen : w.requests.length = 5)
    (hnd : (w.requests.map (fun r => r.requestTimestamp)).Nodup) :
    (syncAllHistorical w 2).map List.length = [2, 2, 1] ∧
    (syncAllHistorical w 2).length = 3 ∧
    (syncAllHistorical w 2).flatten.Perm w.requests ∧
    ((syncAllHistorical w 2).flatten.map (fun r => r.requestTimestamp)).Nodup := by
  have hSperm : (w.requests.mergeSort tsLeB).Perm w.requests :=
    List.mergeSort_perm w.requests tsLeB
  have hndS : ((w.requests.mergeSort tsLeB).map
      (fun r => r.requestTimestamp)).Nodup :=
    ((hSperm.map (fun r => r.requestTimestamp)).nodup_iff).mpr hnd
  have hSsorted :=
    pairwise_strict_of_le_nodup _ (mergeSort_ts_pairwise w.requests) hndS
  have hSlen : (w.requests.mergeSort tsLeB).length = 5 := by
    rw [hSperm.length_eq, hlen]
  have hne : w.requests.map (fun r => r.requestTimestamp) ≠ [] := by
    intro hcontra
    have hlen0 := congrArg List.length hcontra
    rw [List.length_map, hlen] at hlen0
    cases hlen0
  rcases hmn : (w.requests.map (fun r => r.requestTimestamp)).min? with _ | mn
  · exact absurd (List.min?_eq_none_iff.mp hmn) hne
  rcases hmx : (w.requests.map (fun r => r.requestTimestamp)).max? with _ | mx
  · exact absurd (List.max?_eq_none_iff.mp hmx) hne
  obtain ⟨-, hmnle⟩ := nat_min?_spec _ mn hmn
  obtain ⟨-, hmxge⟩ := nat_max?_spec _ mx hmx
  have hmax : ∀ r ∈ w.requests, r.requestTimestamp ≤ mx := by
    intro r hr
    exact hmxge _ (List.mem_map_of_mem _ hr)
  have hinv0 : (w.requests.mergeSort tsLeB).filter
      (fun r => decide (mn ≤ r.requestTimestamp)) =
      (w.requests.mergeSort tsLeB).drop 0 := by
    rw [List.drop_zero]
    refine List.filter_eq_self.mpr ?_
    intro r hr
    exact decide_eq_true (hmnle _ (List.mem_map_of_mem _ (hSperm.mem_iff.mp hr)))
  have hmain := syncChunksAux_eq w (w.requests.mergeSort tsLeB) mx 2 (by omega)
    hSperm hSsorted hmax (w.requests.length + 1) 0 mn
    (by rw [hSperm.length_eq]; omega) (by omega) hinv0
  rw [List.drop_zero] at hmain
  have hsync : syncAllHistorical w 2 = chunksOf 2 (w.requests.mergeSort tsLeB) := by
    unfold syncAllHistorical
    rw [hmn, hmx]
    exact hmain
  obtain ⟨hmap, hlen3⟩ := chunksOf_two_of_length_five _ hSlen
  have hflat := chunksOf_flatten 2 (by omega) (w.requests.mergeSort tsLeB)
  refine ⟨by rw [hsync]; exact hmap, by rw [hsync]; exact hlen3, ?_, ?_⟩
  · rw [hsync, hflat]; exact hSperm
  · rw [hsync, hflat]; exact hndS

/-- The 5-row, distinct-ascending-timestamp table of the backfill
scenario. -/
def fiveRowWarehouse : Warehouse :=
  ⟨[⟨1, 0, 1, 1, 10, none⟩, ⟨2, 0, 1, 1, 20, none⟩, ⟨3, 0, 1, 1, 30, none⟩,
    ⟨4, 0, 1, 1, 40, none⟩, ⟨5, 0, 1, 1, 50, none⟩],
   [], [⟨1, "RES"⟩], [⟨1, "/a", 1⟩], []⟩

/-- C9 witness: the backfill scenario theorem at the concrete 5-row
table. -/
theorem backfill_five_rows_chunk_two_witness :
    (syncAllHistorical fiveRowWarehouse 2).map List.length = [2, 2, 1] ∧
    (syncAllHistorical fiveRowWarehouse 2).length = 3 ∧
    (syncAllHistorical fiveRowWarehouse 2).flatten.Perm
      fiveRowWarehouse.requests ∧
    ((syncAllHistorical fiveRowWarehouse 2).flatten.map
      (fun r => r.requestTimestamp)).Nodup :=
  backfill_five_rows_chunk_two fiveRowWarehouse (by decide) (by decide)

end StatsApp
